import Mathlib

/-!
Verification development for the `tiny` expression language of this
repository (`src/tinyparser.h`) and for the optimized `ConditionStack`
from `src/debugger/see.h`.

The C++ sources are embedded shallowly:

* the singly linked token chain (`token_t*`) becomes a `List token_t`;
  the tokenizer keeps its accumulated output in reverse order (the C++
  `tail` pointer is the head of the reversed list, the C++ `prev`
  pointer is the element after it) and reverses it on return;
* `char* value` (which may be `nullptr`) becomes `Option String`;
* a C++ null-pointer dereference (undefined behavior, a crash in
  practice) is modeled by an explicit `crash` result constructor;
* a thrown `std::runtime_error` is modeled by an explicit error
  constructor carrying the scan position and character (lexer), or the
  remaining token (parser);
* the mutually recursive backtracking parser is defined with an explicit
  fuel parameter so that the mutual recursion is structural; fuel
  exhaustion is a separate `outOfFuel` constructor, and it is proved
  below that with fuel `5 * (number of tokens) + 6` it never occurs;
* the evaluation callback table `st_callback_table` becomes a record of
  state-passing functions over an arbitrary host state `σ`, with `ref`
  as `Nat` (`size_t` handles are opaque to the core); the single place
  where C++ leaves the evaluation order between two subexpressions
  unspecified (the two argument expressions of `ct->bin(op, lhs->eval(ct),
  rhs->eval(ct))` in `bin_t::eval`) is modeled by an `EvalOrder`
  parameter with the two orders C++ permits at that call site.
-/

namespace tiny

/-- Token kinds, mirroring `enum token_type` of `src/tinyparser.h`. -/
inductive token_type where
  | tok_undef
  | tok_symbol
  | tok_number
  | tok_equal
  | tok_lparen
  | tok_rparen
  | tok_string
  | tok_mul
  | tok_plus
  | tok_minus
  | tok_div
  | tok_concat
  | tok_comma
  | tok_hex
  | tok_bin
  | tok_consumable
  | tok_ws
deriving DecidableEq, Repr

/-- A token: kind plus literal text (`char* value`, `nullptr` = `none`).
The `next` pointer of the C++ struct is represented by list adjacency. -/
structure token_t where
  token : token_type
  value : Option String
deriving DecidableEq, Repr

/-- Direct translation of `determine_token` (src/tinyparser.h lines 64-101).
`c` is the current character, `p` the previous one (`0` at the start),
`restrict_type` the active hex/bin digit restriction and `current` the
kind of the token currently at the tail (`tok_undef` when there is none). -/
def determine_token (c p : Char) (restrict_type current : token_type) : token_type :=
  if c = '|' then (if p = '|' then .tok_concat else .tok_consumable)
  else if c = '+' then .tok_plus
  else if c = '-' then .tok_minus
  else if c = '*' then .tok_mul
  else if c = '/' then .tok_div
  else if c = ',' then .tok_comma
  else if c = '=' then .tok_equal
  else if c = ')' then .tok_rparen
  else if c = ' ' ∨ c = '\t' ∨ c = '\n' then .tok_ws
  else if restrict_type ≠ .tok_undef then
    (match restrict_type with
     | .tok_hex =>
        if ('0' ≤ c ∧ c ≤ '9') ∨ ('a' ≤ c ∧ c ≤ 'f') ∨ ('A' ≤ c ∧ c ≤ 'F') then
          .tok_number
        else .tok_undef
     | .tok_bin => if c = '0' ∨ c = '1' then .tok_number else .tok_undef
     | _ => .tok_undef)
  else if c = 'x' ∧ p = '0' ∧ current = .tok_number then .tok_hex
  else if c = 'b' ∧ p = '0' ∧ current = .tok_number then .tok_bin
  else if '0' ≤ c ∧ c ≤ '9' then
    (if current = .tok_symbol then .tok_symbol else .tok_number)
  else if current = .tok_number ∧ (('a' ≤ c ∧ c ≤ 'f') ∨ ('A' ≤ c ∧ c ≤ 'F')) then
    .tok_number
  else if ('a' ≤ c ∧ c ≤ 'z') ∨ ('A' ≤ c ∧ c ≤ 'Z') ∨ c = '_' then .tok_symbol
  else if c = '"' then .tok_string
  else if c = '(' then .tok_lparen
  else (.tok_undef)

/-- Result of `tokenize`: the token sequence, a thrown tokenization
failure (position and offending character), or a crash: the C++ code
dereferencing its null `tail` pointer (undefined behavior). -/
inductive TokenizeResult where
  | ok (toks : List token_t)
  | lexError (pos : Nat) (c : Char)
  | crash
deriving DecidableEq, Repr

/-- The scanner state of `tokenize` between two loop iterations.
`toksRev` holds the tokens built so far in reverse: its head is the C++
`tail` pointer, the element after it is `prev`. `opn` is the local
`bool open`, `finding` the `char finding` (`0` = `none`). -/
structure TState where
  toksRev : List token_t
  opn : Bool
  finalized : Bool
  finding : Option Char
  restrict_type : token_type
  token_start : Nat
deriving Repr

/-- `strndup(&s[a], b - a)`: the span of the input from position `a`
(inclusive) to `b` (exclusive), as a string. -/
def strSpan (cs : List Char) (a b : Nat) : String :=
  String.mk ((cs.drop a).take (b - a))

/-- Line 128 of `tokenize`: a hex/bin marker converts a pending number
token at the tail into a consumable. -/
def tok_mark (tk : token_type) (l : List token_t) : List token_t :=
  if tk = .tok_hex ∨ tk = .tok_bin then
    (match l with
     | t :: ts =>
        if t.token = .tok_number then ⟨.tok_consumable, t.value⟩ :: ts else t :: ts
     | [] => [])
  else l

/-- Lines 139-149 of `tokenize`: if the tail is a pending consumable and
a hex/bin marker arrived, delete it and set the restriction; otherwise
finalize the still-open tail token's text.  Returns the new reversed
token list, restriction and `finalized` flag, or a terminal outcome. -/
def tok_finalize_prev (cs : List Char) (i : Nat) (st : TState) (toks1 : List token_t)
    (tk restrict0 : token_type) : (List token_t × token_type × Bool) ⊕ TokenizeResult :=
  match toks1 with
  | t :: ts =>
    if t.token = .tok_consumable then
      (if tk = .tok_hex ∨ tk = .tok_bin then
        -- delete the consumable; `tail = prev` (head of `ts`)
        .inl (ts, tk, st.finalized)
       else .inl (t :: ts, restrict0, st.finalized))
    else if st.finalized = false then
      .inl (⟨t.token, some (strSpan cs st.token_start i)⟩ :: ts, restrict0, true)
    else .inl (t :: ts, restrict0, st.finalized)
  | [] =>
    -- line 147 writes `tail->value` through a null tail
    if st.finalized = false then .inr .crash
    else .inl ([], restrict0, st.finalized)

/-- Lines 150-189 of `tokenize`: the switch on the determined kind. -/
def tok_switch (i : Nat) (c : Char) (st : TState) (tk : token_type)
    (toks2 : List token_t) (restrict2 : token_type) (finalized2 : Bool) :
    TState ⊕ TokenizeResult :=
  match tk with
  | .tok_string | .tok_symbol | .tok_number | .tok_consumable =>
    .inl { toksRev := ⟨tk, none⟩ :: toks2,
           opn := true,
           finalized := false,
           finding := if tk = .tok_string then some '"' else st.finding,
           restrict_type := restrict2,
           token_start := i }
  | .tok_equal | .tok_lparen | .tok_rparen | .tok_mul | .tok_plus
  | .tok_minus | .tok_concat | .tok_comma | .tok_div | .tok_hex | .tok_bin =>
    (match toks2 with
     | [] => .inr .crash  -- line 174: `tail->token` with a null tail
     | t :: ts =>
        let base := if t.token = .tok_consumable then ts else t :: ts
        .inl { toksRev := ⟨tk, some (String.singleton c)⟩ :: base,
               opn := false,
               finalized := finalized2,
               finding := st.finding,
               restrict_type := restrict2,
               token_start := st.token_start })
  | .tok_ws =>
    .inl { st with
           toksRev := toks2,
           opn := false,
           finalized := finalized2,
           restrict_type := restrict2 }
  | _ => .inr (.lexError i c)

/-- Lines 139-189 of `tokenize`: previous-token handling followed by the
switch on the determined kind. -/
def tok_close (cs : List Char) (i : Nat) (c : Char) (st : TState)
    (toks1 : List token_t) (tk restrict0 : token_type) : TState ⊕ TokenizeResult :=
  match tok_finalize_prev cs i st toks1 tk restrict0 with
  | .inr r => .inr r
  | .inl (toks2, restrict2, finalized2) => tok_switch i c st tk toks2 restrict2 finalized2

/-- One iteration of the scan loop of `tokenize`
(src/tinyparser.h lines 121-191) outside the string-finding mode.
Returns the next state (`inl`) or a terminal outcome (`inr`). -/
def tokstep (cs : List Char) (i : Nat) (p c : Char) (st : TState) :
    TState ⊕ TokenizeResult :=
  let current : token_type :=
    match st.toksRev with | [] => .tok_undef | t :: _ => t.token
  let tk := determine_token c p st.restrict_type current
  -- line 123: `token == tok_consumable && tail->token == tok_consumable`
  -- reads `tail->token`; with no tail yet this dereferences null.
  if tk = .tok_consumable ∧ st.toksRev = [] then .inr .crash
  else if tk = .tok_consumable ∧ current = .tok_consumable then .inr (.lexError i c)
  -- line 128 reads `tail->token` whenever the kind is hex/bin.
  else if (tk = .tok_hex ∨ tk = .tok_bin) ∧ st.toksRev = [] then .inr .crash
  else
    -- line 128: a hex/bin marker turns the pending number into a consumable
    let toks1 : List token_t := tok_mark tk st.toksRev
    -- lines 130-133: whitespace closes the token and clears the restriction
    let opn0 := if tk = .tok_ws then false else st.opn
    let restrict0 := if tk = .tok_ws then token_type.tok_undef else st.restrict_type
    -- line 136 reads `tail->token` when the token is open
    if opn0 ∧ toks1 = [] then .inr .crash
    else
      let tailTok : token_type :=
        match toks1 with | [] => .tok_undef | t :: _ => t.token
      -- lines 135-137: an open run stays open only while the kind repeats
      let opn1 := if opn0 then tk = tailTok else false
      if opn1 then
        .inl { st with toksRev := toks1, opn := true, restrict_type := restrict0 }
      else
        tok_close cs i c st toks1 tk restrict0

/-- The scan loop of `tokenize`, including the string-literal
"find the closing quote" sub-mode (lines 115-120) and the final
finalization of a still-open token (lines 193-196). -/
def tokgo (cs : List Char) : Nat → Char → List Char → TState → TokenizeResult
  | i, _p, [], st =>
    if st.finalized then .ok st.toksRev.reverse
    else
      (match st.toksRev with
       | [] => .crash  -- line 194 writes `tail->value` through a null tail
       | t :: ts => .ok ((⟨t.token, some (strSpan cs st.token_start i)⟩ :: ts)).reverse)
  | i, p, c :: rest, st =>
    match st.finding with
    | some f =>
      if c = f then tokgo cs (i+1) c rest { st with finding := none, opn := false }
      else tokgo cs (i+1) c rest st
    | none =>
      match tokstep cs i p c st with
      | .inl st1 => tokgo cs (i+1) c rest st1
      | .inr r => r

/-- `tokenize` (src/tinyparser.h lines 103-198). -/
def tokenize (s : String) : TokenizeResult :=
  tokgo s.data 0 (Char.ofNat 0) s.data
    { toksRev := [], opn := false, finalized := true,
      finding := none, restrict_type := .tok_undef, token_start := 0 }

/-! ### The AST (`st_t` and its subclasses, src/tinyparser.h lines 212-328)

The C++ class hierarchy becomes one inductive type.  `list_t` holds its
element vector; `call_t` holds `list_t* args`, which `parse_fcall`
deliberately leaves null for zero-argument calls, hence `Option st_t`. -/

/-- AST nodes: `var_t`, `value_t`, `set_t`, `list_t`, `call_t`, `bin_t`. -/
inductive st_t where
  | var_t (varname : String)
  | value_t (type restriction : token_type) (value : String)
  | set_t (varname : String) (value : st_t)
  | list_t (values : List st_t)
  | call_t (fname : String) (args : Option st_t)
  | bin_t (op_token : token_type) (lhs rhs : st_t)
deriving Repr

/-- The `value_t` constructor (lines 236-241): for string literals the
surrounding quotes are stripped (`value.substr(1, value.length() - 2)`).
For a string of length at least 1 this equals dropping the first and the
last character; the lexer always includes the opening quote in a string
token so the length-0 case (where the C++ `substr` would throw
`std::out_of_range`) does not arise from tokenized input. -/
def value_t_mk (type : token_type) (value_in : String) (restriction : token_type) : st_t :=
  .value_t type restriction
    (if type = .tok_string then (value_in.drop 1).dropRight 1 else value_in)

/-- Result of one grammar rule.  `ok node rest` is a non-null return with
the caller's cursor set to `rest`; `fail rest` is a null return with the
cursor as the rule left it (the C++ rules pass `token_t** s` and write
`*s` only on success); `crash` is a null-pointer dereference; `outOfFuel`
only arises when the explicit fuel runs out (proved impossible below for
fuel `5 * length + 6`). -/
inductive PRes where
  | ok (node : st_t) (rest : List token_t)
  | fail (rest : List token_t)
  | crash
  | outOfFuel
deriving Repr

/-- `parse_variable` (lines 333-340).  Dereferences `(*s)->token` (crash
on an empty cursor) and builds a `std::string` from `(*s)->value` (crash
when that is null). -/
def parse_variable (s : List token_t) : PRes :=
  match s with
  | [] => .crash
  | t :: r =>
    if t.token = .tok_symbol then
      (match t.value with
       | none => .crash
       | some v => .ok (.var_t v) r)
    else .fail (t :: r)

/-- `parse_value` (lines 342-349).  The `restriction` is the C++ default
argument `tok_undef` unless `parse_restricted` passes one. -/
def parse_value (s : List token_t) (restriction : token_type) : PRes :=
  match s with
  | [] => .crash
  | t :: r =>
    if t.token = .tok_symbol ∨ t.token = .tok_number ∨ t.token = .tok_string then
      (match t.value with
       | none => .crash
       | some v => .ok (value_t_mk t.token v restriction) r)
    else .fail (t :: r)

/-- `parse_restricted` (lines 351-368): a hex/bin marker token followed by
an optional value; a bare `0x` yields an empty hex literal, a bare `0b`
fails. -/
def parse_restricted (s : List token_t) : PRes :=
  match s with
  | [] => .crash
  | t :: r =>
    if t.token = .tok_hex ∨ t.token = .tok_bin then
      (match r with
       | [] =>
         if t.token = .tok_hex then .ok (value_t_mk .tok_number "" .tok_hex) []
         else .fail (t :: r)
       | _ :: _ =>
         match parse_value r t.token with
         | .ok node r2 => .ok node r2
         | .fail _ =>
           if t.token = .tok_hex then .ok (value_t_mk .tok_number "" .tok_hex) r
           else .fail (t :: r)
         | .crash => .crash
         | .outOfFuel => .outOfFuel)
    else .fail (t :: r)

/-- `try(parser)` (line 331): `x = parser(s); if (x) return x;` — the next
alternative is run on the cursor exactly as the failed one left it. -/
def POrElse (r : PRes) (f : List token_t → PRes) : PRes :=
  match r with
  | .fail s => f s
  | x => x

/-- Result of `parse_csv`'s scanning loop. -/
inductive CsvRes where
  | done (values : List st_t) (rest : List token_t)
  | crash
  | outOfFuel
deriving Repr

mutual

/-- `parse_expr` (lines 402-411): fixed-order alternatives. -/
def parse_expr (fuel : Nat) (s : List token_t) (allow_tok_binary allow_set : Bool) : PRes :=
  match fuel with
  | 0 => .outOfFuel
  | fuel + 1 =>
    POrElse (if allow_tok_binary then parse_tok_binary_expr fuel s else .fail s) (fun s1 =>
    POrElse (if allow_set then parse_set fuel s1 else .fail s1) (fun s2 =>
    POrElse (parse_fcall fuel s2) (fun s3 =>
    POrElse (parse_parenthesized fuel s3) (fun s4 =>
    POrElse (parse_variable s4) (fun s5 =>
    POrElse (parse_restricted s5) (fun s6 =>
    parse_value s6 .tok_undef))))))

/-- `parse_set` (lines 372-385): `tok_symbol tok_equal [expr]`. -/
def parse_set (fuel : Nat) (s : List token_t) : PRes :=
  match fuel with
  | 0 => .outOfFuel
  | fuel + 1 =>
    match parse_variable s with
    | .crash => .crash
    | .outOfFuel => .outOfFuel
    | .fail _ => .fail s
    | .ok v r =>
      match v with
      | .var_t varname =>
        (match r with
         | [] => .fail s
         | t :: r2 =>
           match r2 with
           | [] => .fail s
           | _ :: _ =>
             if t.token = .tok_equal then
               (match parse_expr fuel r2 true false with
                | .ok val r3 => .ok (.set_t varname val) r3
                | .fail _ => .fail s
                | .crash => .crash
                | .outOfFuel => .outOfFuel)
             else .fail s)
      | _ => .crash

/-- `parse_parenthesized` (lines 387-397): `tok_lparen expr tok_rparen`. -/
def parse_parenthesized (fuel : Nat) (s : List token_t) : PRes :=
  match fuel with
  | 0 => .outOfFuel
  | fuel + 1 =>
    match s with
    | [] => .crash
    | t :: r =>
      if t.token = .tok_lparen then
        (match r with
         | [] => .fail (t :: r)
         | _ :: _ =>
           match parse_expr fuel r true false with
           | .fail _ => .fail (t :: r)
           | .crash => .crash
           | .outOfFuel => .outOfFuel
           | .ok v r2 =>
             match r2 with
             | [] => .fail (t :: r)
             | t2 :: r3 => if t2.token = .tok_rparen then .ok v r3 else .fail (t :: r))
      else .fail (t :: r)

/-- `parse_tok_binary_expr` (lines 435-445): a binary-free expression
followed by an operator and a full expression. -/
def parse_tok_binary_expr (fuel : Nat) (s : List token_t) : PRes :=
  match fuel with
  | 0 => .outOfFuel
  | fuel + 1 =>
    match parse_expr fuel s false false with
    | .fail _ => .fail s
    | .crash => .crash
    | .outOfFuel => .outOfFuel
    | .ok lhs r =>
      match r with
      | [] => .fail s
      | _ :: _ =>
        match parse_tok_binary_expr_post_lhs fuel r lhs with
        | .ok res r2 => .ok res r2
        | .fail _ => .fail s
        | .crash => .crash
        | .outOfFuel => .outOfFuel

/-- `parse_tok_binary_expr_post_lhs` (lines 413-433). -/
def parse_tok_binary_expr_post_lhs (fuel : Nat) (s : List token_t) (lhs : st_t) : PRes :=
  match fuel with
  | 0 => .outOfFuel
  | fuel + 1 =>
    match s with
    | [] => .crash
    | t :: r =>
      if t.token = .tok_plus ∨ t.token = .tok_minus ∨ t.token = .tok_mul ∨
         t.token = .tok_div ∨ t.token = .tok_concat then
        (match r with
         | [] => .fail (t :: r)
         | _ :: _ =>
           match parse_expr fuel r true false with
           | .ok rhs r2 => .ok (.bin_t t.token lhs rhs) r2
           | .fail _ => .fail (t :: r)
           | .crash => .crash
           | .outOfFuel => .outOfFuel)
      else .fail (t :: r)

/-- The `while (r)` loop of `parse_csv` (lines 452-461). -/
def csv_loop (fuel : Nat) (values : List st_t) (r : List token_t) : CsvRes :=
  match fuel with
  | 0 => .outOfFuel
  | fuel + 1 =>
    match r with
    | [] => .done values []
    | _ :: _ =>
      match parse_expr fuel r true false with
      | .fail r1 => .done values r1
      | .crash => .crash
      | .outOfFuel => .outOfFuel
      | .ok node r2 =>
        match r2 with
        | [] => .done (values ++ [node]) []
        | t :: r3 =>
          if t.token = .tok_comma then csv_loop fuel (values ++ [node]) r3
          else .done (values ++ [node]) (t :: r3)

/-- `parse_csv` (lines 447-467): at least one element, else a null return
with the caller's cursor untouched. -/
def parse_csv (fuel : Nat) (s : List token_t) : PRes :=
  match fuel with
  | 0 => .outOfFuel
  | fuel + 1 =>
    match csv_loop fuel [] s with
    | .crash => .crash
    | .outOfFuel => .outOfFuel
    | .done values r =>
      match values with
      | [] => .fail s
      | _ :: _ => .ok (.list_t values) r

/-- `parse_fcall` (lines 469-482): `tok_symbol tok_lparen [args] tok_rparen`.
When `parse_csv` fails the call node keeps a null argument list
(`// may be null, for case function() (0 args)`). -/
def parse_fcall (fuel : Nat) (s : List token_t) : PRes :=
  match fuel with
  | 0 => .outOfFuel
  | fuel + 1 =>
    match s with
    | [] => .crash
    | t :: r =>
      if t.token = .tok_symbol then
        (match t.value with
         | none => .crash
         | some fname =>
           match r with
           | [] => .fail (t :: r)
           | t2 :: r2 =>
             match r2 with
             | [] => .fail (t :: r)
             | _ :: _ =>
               if t2.token = .tok_lparen then
                 (match parse_csv fuel r2 with
                  | .crash => .crash
                  | .outOfFuel => .outOfFuel
                  | .ok args r3 =>
                    (match r3 with
                     | [] => .fail (t :: r)
                     | t3 :: r4 =>
                       if t3.token = .tok_rparen then .ok (.call_t fname (some args)) r4
                       else .fail (t :: r))
                  | .fail r3 =>
                    (match r3 with
                     | [] => .fail (t :: r)
                     | t3 :: r4 =>
                       if t3.token = .tok_rparen then .ok (.call_t fname none) r4
                       else .fail (t :: r)))
               else .fail (t :: r))
      else .fail (t :: r)

end

/-- Result of `treeify`: an AST root (C++ returns a possibly-null
`st_t*`, hence `Option`), a thrown syntax error carrying the first
remaining token, a crash, or fuel exhaustion (never occurs for the fuel
`treeify` supplies, see `parser_total`). -/
inductive TreeifyResult where
  | astR (root : Option st_t)
  | synErr (tok : token_t)
  | crash
  | outOfFuel
deriving Repr

/-- Fuel that is proved sufficient for any token sequence. -/
def parser_fuel (tokens : List token_t) : Nat := 5 * tokens.length + 6

/-- `treeify` (lines 484-492): parse a full expression (binary operators
and assignments allowed) and require the whole sequence to be consumed. -/
def treeify (tokens : List token_t) : TreeifyResult :=
  match parse_expr (parser_fuel tokens) tokens true true with
  | .crash => .crash
  | .outOfFuel => .outOfFuel
  | .ok value s =>
    (match s with
     | [] => .astR (some value)
     | t :: _ => .synErr t)
  | .fail s =>
    (match s with
     | [] => .astR none
     | t :: _ => .synErr t)

/-! ### Evaluation (`st_callback_table` and the `eval` methods)

`ref` is `size_t`, an opaque handle chosen by the host.  The callback
table is a record of state-passing functions over a host state `σ`.
`EvalOrder` models the one place where the C++ abstract machine does not
fix an evaluation order: in `bin_t::eval` (line 326) the two operand
evaluations are arguments of the call `ct->bin(op_token, lhs->eval(ct),
rhs->eval(ct))` and C++ leaves their relative order unspecified; all
other sequencing (the `list_eval` loop, `set_t::eval`) is fixed. -/

abbrev ref := Nat

/-- `nullref` (line 201). -/
def nullref : ref := 0

/-- `st_callback_table` (lines 203-210). -/
structure st_callback_table (σ : Type) where
  load : String → σ → ref × σ
  save : String → ref → σ → σ
  bin : token_type → ref → ref → σ → ref × σ
  unary : token_type → ref → σ → ref × σ
  fcall : String → List ref → σ → ref × σ
  convert : String → token_type → token_type → σ → ref × σ

/-- The two argument-evaluation orders C++ permits for the `ct->bin`
call in `bin_t::eval`. -/
inductive EvalOrder where
  | left_first
  | right_first
deriving DecidableEq, Repr

mutual

/-- The `eval` virtual methods (lines 216-328), fuel-indexed (any fuel
larger than the AST depth gives the real result).  `none` models a
failure to produce a value: `list_t::eval` throwing, `call_t::eval`
calling `args->list_eval` through a null `args`, or fuel exhaustion. -/
def eval {σ : Type} : Nat → EvalOrder → st_callback_table σ → st_t → σ → Option (ref × σ)
  | 0, _, _, _, _ => none
  | fuel + 1, ord, ct, t, s =>
    match t with
    | .var_t v => some (ct.load v s)
    | .value_t ty restr v => some (ct.convert v ty restr s)
    | .set_t name val =>
      (match eval fuel ord ct val s with
       | none => none
       | some (r, s1) => some (nullref, ct.save name r s1))
    | .list_t _ => none
    | .call_t fname args =>
      (match args with
       | none => none
       | some (.list_t vs) =>
         (match list_eval fuel ord ct vs s with
          | none => none
          | some (rs, s1) => some (ct.fcall fname rs s1))
       | some _ => none)
    | .bin_t op l r =>
      (match ord with
       | .left_first =>
         (match eval fuel ord ct l s with
          | none => none
          | some (rl, s1) =>
            match eval fuel ord ct r s1 with
            | none => none
            | some (rr, s2) => some (ct.bin op rl rr s2))
       | .right_first =>
         (match eval fuel ord ct r s with
          | none => none
          | some (rr, s1) =>
            match eval fuel ord ct l s1 with
            | none => none
            | some (rl, s2) => some (ct.bin op rl rr s2)))

/-- `list_t::list_eval` (lines 284-289): elements evaluated strictly left
to right. -/
def list_eval {σ : Type} : Nat → EvalOrder → st_callback_table σ → List st_t → σ →
    Option (List ref × σ)
  | 0, _, _, _, _ => none
  | _ + 1, _, _, [], s => some ([], s)
  | fuel + 1, ord, ct, v :: vs, s =>
    match eval fuel ord ct v s with
    | none => none
    | some (r, s1) =>
      match list_eval fuel ord ct vs s1 with
      | none => none
      | some (rs, s2) => some (r :: rs, s2)

end

/-! ### A recording contract, to observe the order of contract calls. -/

/-- One observable contract call. -/
inductive Event where
  | loadE (name : String)
  | saveE (name : String) (value : ref)
  | binE (op : token_type) (lhs rhs : ref)
  | unaryE (op : token_type) (value : ref)
  | fcallE (fname : String) (args : List ref)
  | convertE (value : String) (type restriction : token_type)
deriving DecidableEq, Repr

/-- A contract whose state is the list of calls made so far; the returned
refs are given by the pure functions `L`, `B`, `U`, `F`, `C`. -/
def recCB (L : String → ref) (B : token_type → ref → ref → ref)
    (U : token_type → ref → ref) (F : String → List ref → ref)
    (C : String → token_type → token_type → ref) : st_callback_table (List Event) :=
  { load := fun v s => (L v, s ++ [.loadE v]),
    save := fun v r s => s ++ [.saveE v r],
    bin := fun op l r s => (B op l r, s ++ [.binE op l r]),
    unary := fun op v s => (U op v, s ++ [.unaryE op v]),
    fcall := fun f as s => (F f as, s ++ [.fcallE f as]),
    convert := fun v ty rs s => (C v ty rs, s ++ [.convertE v ty rs]) }

/-- A pure, stateless contract over `σ = Unit`. -/
def pureCB (L : String → ref) (B : token_type → ref → ref → ref)
    (U : token_type → ref → ref) (F : String → List ref → ref)
    (C : String → token_type → token_type → ref) : st_callback_table Unit :=
  { load := fun v s => (L v, s),
    save := fun _ _ s => s,
    bin := fun op l r s => (B op l r, s),
    unary := fun op v s => (U op v, s),
    fcall := fun f as s => (F f as, s),
    convert := fun v ty rs s => (C v ty rs, s) }

end tiny

namespace see

/-! ### `ConditionStack` (src/debugger/see.h lines 25-72)

The two fields are `uint32_t`; they are embedded as `Nat` with explicit
reduction mod `2^32` at the operations that can wrap. -/

/-- `2^32`, the `uint32_t` modulus. -/
def U32 : Nat := 2 ^ 32

/-- `NO_FALSE = std::numeric_limits<uint32_t>::max()`. -/
def NO_FALSE : Nat := 2 ^ 32 - 1

/-- The optimized condition stack: only the implied size and the position
of the first false value are materialized. -/
structure ConditionStack where
  m_stack_size : Nat
  m_first_false_pos : Nat
deriving DecidableEq, Repr

/-- The default-constructed stack (`m_stack_size = 0`,
`m_first_false_pos = NO_FALSE`). -/
def ConditionStack.init : ConditionStack := ⟨0, NO_FALSE⟩

/-- `size()`. -/
def ConditionStack.size (cs : ConditionStack) : Nat := cs.m_stack_size

/-- `at(idx)`: `m_first_false_pos > idx`.  (Named `at_` because `at` is a
reserved word in Lean.) -/
def ConditionStack.at_ (cs : ConditionStack) (idx : Nat) : Bool :=
  idx < cs.m_first_false_pos

/-- `empty()`. -/
def ConditionStack.empty (cs : ConditionStack) : Bool := cs.m_stack_size == 0

/-- `all_true()`. -/
def ConditionStack.all_true (cs : ConditionStack) : Bool :=
  cs.m_first_false_pos == NO_FALSE

/-- `push_back(f)`. -/
def ConditionStack.push_back (cs : ConditionStack) (f : Bool) : ConditionStack :=
  { m_first_false_pos :=
      if cs.m_first_false_pos = NO_FALSE ∧ f = false then cs.m_stack_size
      else cs.m_first_false_pos,
    m_stack_size := (cs.m_stack_size + 1) % U32 }

/-- `pop_back()` (the `assert(m_stack_size > 0)` is a precondition; the
theorems below only apply it to non-empty stacks). -/
def ConditionStack.pop_back (cs : ConditionStack) : ConditionStack :=
  let sz := (cs.m_stack_size + U32 - 1) % U32
  { m_stack_size := sz,
    m_first_false_pos :=
      if cs.m_first_false_pos = sz then NO_FALSE else cs.m_first_false_pos }

/-- `toggle_top()` (same precondition as `pop_back`). -/
def ConditionStack.toggle_top (cs : ConditionStack) : ConditionStack :=
  if cs.m_first_false_pos = NO_FALSE then
    { cs with m_first_false_pos := (cs.m_stack_size + U32 - 1) % U32 }
  else if cs.m_first_false_pos = (cs.m_stack_size + U32 - 1) % U32 then
    { cs with m_first_false_pos := NO_FALSE }
  else cs

/-- The operations of the `ConditionStack` interface that mutate it. -/
inductive CSOp where
  | push (b : Bool)
  | pop
  | toggle
deriving DecidableEq, Repr

/-- The naive specification stack: a vector of booleans, one per nesting
level; `push` appends, `pop` drops the last element, `toggle` flips it. -/
def naiveStep (l : List Bool) : CSOp → List Bool
  | .push b => l ++ [b]
  | .pop => l.dropLast
  | .toggle => l.dropLast ++ (match l.getLast? with | none => [] | some b => [!b])

/-- One optimized step. -/
def optStep (cs : ConditionStack) : CSOp → ConditionStack
  | .push b => cs.push_back b
  | .pop => cs.pop_back
  | .toggle => cs.toggle_top

/-- Run a sequence of operations on the naive stack. -/
def runNaive (ops : List CSOp) (l : List Bool) : List Bool := ops.foldl naiveStep l

/-- Run a sequence of operations on the optimized stack. -/
def runOpt (ops : List CSOp) (cs : ConditionStack) : ConditionStack := ops.foldl optStep cs

/-- The claim's own legality condition: `pop`/`toggle` only on a
non-empty stack (tracked against the naive stack). -/
def LegalOps0 (l : List Bool) : List CSOp → Bool
  | [] => true
  | op :: ops =>
    (match op with
     | .push _ => true
     | .pop => !l.isEmpty
     | .toggle => !l.isEmpty) && LegalOps0 (naiveStep l op) ops

/-- Legality strengthened by the bound that keeps the `uint32_t` fields
faithful: the stack size always stays below `NO_FALSE`. -/
def LegalOps (l : List Bool) : List CSOp → Bool
  | [] => true
  | op :: ops =>
    (match op with
     | .push _ => l.length + 1 < NO_FALSE
     | .pop => !l.isEmpty
     | .toggle => !l.isEmpty) && LegalOps (naiveStep l op) ops

end see

namespace tiny

/-! ### Cursor framing: a failing rule leaves the caller's cursor alone.

Each C++ rule writes `*s` only on the successful return paths; these
lemmas check that the translation has the same property, rule by rule. -/

theorem parse_variable_frame {s s2 : List token_t}
    (h : parse_variable s = .fail s2) : s2 = s := by
  cases s with
  | nil => simp [parse_variable] at h
  | cons t r =>
    simp only [parse_variable] at h
    split at h
    · split at h <;> simp_all
    · simp_all

theorem parse_value_frame {s s2 : List token_t} {restriction : token_type}
    (h : parse_value s restriction = .fail s2) : s2 = s := by
  cases s with
  | nil => simp [parse_value] at h
  | cons t r =>
    simp only [parse_value] at h
    split at h
    · split at h <;> simp_all
    · simp_all

theorem parse_restricted_frame {s s2 : List token_t}
    (h : parse_restricted s = .fail s2) : s2 = s := by
  cases s with
  | nil => simp [parse_restricted] at h
  | cons t r =>
    simp only [parse_restricted] at h
    repeat' split at h
    all_goals simp_all

theorem parse_set_frame {fuel : Nat} {s s2 : List token_t}
    (h : parse_set fuel s = .fail s2) : s2 = s := by
  cases fuel with
  | zero => simp [parse_set] at h
  | succ fuel =>
    simp only [parse_set] at h
    repeat' split at h
    all_goals simp_all

theorem parse_parenthesized_frame {fuel : Nat} {s s2 : List token_t}
    (h : parse_parenthesized fuel s = .fail s2) : s2 = s := by
  cases fuel with
  | zero => simp [parse_parenthesized] at h
  | succ fuel =>
    simp only [parse_parenthesized] at h
    repeat' split at h
    all_goals simp_all

theorem parse_tok_binary_expr_post_lhs_frame {fuel : Nat} {s s2 : List token_t} {lhs : st_t}
    (h : parse_tok_binary_expr_post_lhs fuel s lhs = .fail s2) : s2 = s := by
  cases fuel with
  | zero => simp [parse_tok_binary_expr_post_lhs] at h
  | succ fuel =>
    simp only [parse_tok_binary_expr_post_lhs] at h
    repeat' split at h
    all_goals simp_all

theorem parse_tok_binary_expr_frame {fuel : Nat} {s s2 : List token_t}
    (h : parse_tok_binary_expr fuel s = .fail s2) : s2 = s := by
  cases fuel with
  | zero => simp [parse_tok_binary_expr] at h
  | succ fuel =>
    simp only [parse_tok_binary_expr] at h
    repeat' split at h
    all_goals simp_all

theorem parse_csv_frame {fuel : Nat} {s s2 : List token_t}
    (h : parse_csv fuel s = .fail s2) : s2 = s := by
  cases fuel with
  | zero => simp [parse_csv] at h
  | succ fuel =>
    simp only [parse_csv] at h
    repeat' split at h
    all_goals simp_all

theorem parse_fcall_frame {fuel : Nat} {s s2 : List token_t}
    (h : parse_fcall fuel s = .fail s2) : s2 = s := by
  cases fuel with
  | zero => simp [parse_fcall] at h
  | succ fuel =>
    simp only [parse_fcall] at h
    repeat' split at h
    all_goals simp_all

theorem POrElse_frame {r : PRes} {f : List token_t → PRes} {s s2 : List token_t}
    (hr : ∀ s1, r = .fail s1 → s1 = s)
    (hf : ∀ s1 s3, f s1 = .fail s3 → s3 = s1)
    (h : POrElse r f = .fail s2) : s2 = s := by
  cases hres : r with
  | fail s1 =>
    have h2 : f s1 = .fail s2 := by rw [hres] at h; simpa [POrElse] using h
    exact (hf s1 s2 h2).trans (hr s1 hres)
  | ok node rest => rw [hres] at h; simp [POrElse] at h
  | crash => rw [hres] at h; simp [POrElse] at h
  | outOfFuel => rw [hres] at h; simp [POrElse] at h

theorem parse_expr_frame {fuel : Nat} {s s2 : List token_t} {ab as : Bool}
    (h : parse_expr fuel s ab as = .fail s2) : s2 = s := by
  cases fuel with
  | zero => simp [parse_expr] at h
  | succ fuel =>
    rw [parse_expr] at h
    refine POrElse_frame ?_ ?_ h
    · intro s1 h1
      cases ab <;> simp only [if_pos, if_neg, Bool.false_eq_true, ite_false, ite_true] at h1
      · simp_all
      · exact parse_tok_binary_expr_frame h1
    · intro s1 s3 h1
      refine POrElse_frame ?_ ?_ h1
      · intro u hu
        cases as <;> simp only [Bool.false_eq_true, ite_false, ite_true] at hu
        · simp_all
        · exact parse_set_frame hu
      · intro u1 u3 hu
        refine POrElse_frame ?_ ?_ hu
        · intro w hw; exact parse_fcall_frame hw
        · intro w1 w3 hw
          refine POrElse_frame ?_ ?_ hw
          · intro x hx; exact parse_parenthesized_frame hx
          · intro x1 x3 hx
            refine POrElse_frame ?_ ?_ hx
            · intro y hy; exact parse_variable_frame hy
            · intro y1 y3 hy
              refine POrElse_frame ?_ ?_ hy
              · intro z hz; exact parse_restricted_frame hz
              · intro z1 z3 hz; exact parse_value_frame hz

/-! ### C7: no partial consumption on parse failure. -/

/-- C7: for every grammar rule (`parse_variable`, `parse_value`,
`parse_restricted`, `parse_set`, `parse_parenthesized`, `parse_expr`,
`parse_tok_binary_expr`, `parse_csv`, `parse_fcall`) and every cursor
position, if the rule fails (returns none) the caller's token cursor is
exactly what it was before the call. -/
theorem C7_no_partial_consumption :
    ∀ (fuel : Nat) (s s2 : List token_t) (restriction : token_type)
      (ab as : Bool) (lhs : st_t),
      (parse_variable s = .fail s2 → s2 = s) ∧
      (parse_value s restriction = .fail s2 → s2 = s) ∧
      (parse_restricted s = .fail s2 → s2 = s) ∧
      (parse_set fuel s = .fail s2 → s2 = s) ∧
      (parse_parenthesized fuel s = .fail s2 → s2 = s) ∧
      (parse_expr fuel s ab as = .fail s2 → s2 = s) ∧
      (parse_tok_binary_expr fuel s = .fail s2 → s2 = s) ∧
      (parse_csv fuel s = .fail s2 → s2 = s) ∧
      (parse_fcall fuel s = .fail s2 → s2 = s) ∧
      (parse_tok_binary_expr_post_lhs fuel s lhs = .fail s2 → s2 = s) := by
  intro fuel s s2 restriction ab as lhs
  exact ⟨parse_variable_frame, parse_value_frame, parse_restricted_frame,
    parse_set_frame, parse_parenthesized_frame, parse_expr_frame,
    parse_tok_binary_expr_frame, parse_csv_frame, parse_fcall_frame,
    parse_tok_binary_expr_post_lhs_frame⟩

/-- Witness for `C7_no_parse_consumption` at a concrete failing rule:
`parse_variable` on a cursor whose head is a `+` token fails and the
theorem yields that the cursor is unchanged. -/
theorem C7_no_partial_consumption_witness :
    parse_variable [⟨.tok_plus, some "+"⟩] = .fail [⟨.tok_plus, some "+"⟩] ∧
    ([⟨.tok_plus, some "+"⟩] : List token_t) = [⟨.tok_plus, some "+"⟩] :=
  ⟨rfl, (C7_no_partial_consumption 1 [⟨.tok_plus, some "+"⟩] [⟨.tok_plus, some "+"⟩]
    .tok_undef true true (.var_t "x")).1 rfl⟩

/-! ### C2/C4: crashes in `tokenize` (null `tail` dereferences). -/

/-- C2: contrary to the claimed totality, `tokenize` dereferences its
null `tail` pointer when the first token-producing character is
structural (`+ - * / , = )`) — line 174 reads `tail->token` — or a
single `|` — line 123 reads `tail->token`.  The embedding reaches the
explicit `crash` result on each such input. -/
theorem C2_tokenize_crashes :
    tokenize "+" = .crash ∧ tokenize "-" = .crash ∧ tokenize "*" = .crash ∧
    tokenize "/" = .crash ∧ tokenize "," = .crash ∧ tokenize "=" = .crash ∧
    tokenize ")" = .crash ∧ tokenize "|" = .crash :=
  ⟨rfl, rfl, rfl, rfl, rfl, rfl, rfl, rfl⟩

/-- C4: `"0x1F"`, `"0x"` and `"0b"` do not lex to tokens or a `LexError`:
after line 128 turns the pending `0` into a consumable, lines 139-145
delete it leaving `tail = prev = nullptr`, and line 174 then dereferences
the null `tail`. -/
theorem C4_hex_prefix_crashes :
    tokenize "0x1F" = .crash ∧ tokenize "0x" = .crash ∧ tokenize "0b" = .crash :=
  ⟨rfl, rfl, rfl⟩

/-! ### C3: zero-argument calls parse but crash on evaluation. -/

/-- C3: `"func()"` parses to a `call_t` whose argument list is the null
pointer (`parse_csv` returned null), and evaluating that node performs no
`fcall` at all: `call_t::eval` invokes `args->list_eval(ct)` through the
null `args`, modeled by the `none` result. -/
theorem C3_zero_arg_call_crash :
    tokenize "func()" = .ok [⟨.tok_symbol, some "func"⟩, ⟨.tok_lparen, some "("⟩,
      ⟨.tok_rparen, some ")"⟩] ∧
    treeify [⟨.tok_symbol, some "func"⟩, ⟨.tok_lparen, some "("⟩,
      ⟨.tok_rparen, some ")"⟩] = .astR (some (.call_t "func" none)) ∧
    ∀ (σ : Type) (fuel : Nat) (ord : EvalOrder) (ct : st_callback_table σ) (s : σ),
      eval fuel ord ct (.call_t "func" none) s = none := by
  refine ⟨rfl, rfl, ?_⟩
  intro σ fuel ord ct s
  cases fuel <;> simp [eval]

/-! ### C5: pipe disambiguation. -/

/-- C5 counterexample: `"a|b"` does not fail with a `LexError`; it
tokenizes successfully (the unresolved pipe remains in the output as a
`tok_consumable` token with null text). -/
theorem C5_single_pipe_no_lex_error :
    tokenize "a|b" = .ok [⟨.tok_symbol, some "a"⟩, ⟨.tok_consumable, none⟩,
      ⟨.tok_symbol, some "b"⟩] ∧
    ∀ pos c, tokenize "a|b" ≠ .lexError pos c := by
  refine ⟨rfl, ?_⟩
  intro pos c h
  rw [show tokenize "a|b" = .ok [⟨.tok_symbol, some "a"⟩, ⟨.tok_consumable, none⟩,
      ⟨.tok_symbol, some "b"⟩] from rfl] at h
  simp at h

/-- C5 amended: `"a||b"` lexes to `[symbol:a, concat, symbol:b]`;
`"a|b"` lexes successfully to `[symbol:a, consumable, symbol:b]` (the
lone pipe survives as a pending-concatenation token and the error, if
any, only arises later in the parser); the lex error for unresolved
pipes requires two pending markers in a row, e.g. `"a| |"`. -/
theorem C5_pipe_lexing :
    tokenize "a||b" = .ok [⟨.tok_symbol, some "a"⟩, ⟨.tok_concat, some "||"⟩,
      ⟨.tok_symbol, some "b"⟩] ∧
    tokenize "a|b" = .ok [⟨.tok_symbol, some "a"⟩, ⟨.tok_consumable, none⟩,
      ⟨.tok_symbol, some "b"⟩] ∧
    tokenize "a| |" = .lexError 3 '|' :=
  ⟨rfl, rfl, rfl⟩

/-! ### C6 counterexample: the empty token sequence crashes `treeify`. -/

/-- C6 counterexample: on the empty token sequence `treeify` does not
return an AST or a `SyntaxError`: `parse_fcall` dereferences the null
cursor (`r->token` with `r = nullptr`). -/
theorem C6_empty_sequence_crash : treeify [] = .crash := rfl

/-! ### C9 counterexample: token-text invariant violations. -/

/-- C9 counterexample: `tokenize` can return a `tok_consumable` token
with null text (`"a|b"`), and a structural `tok_concat` token whose text
is two characters (`"a||b"`, where the unfinalized-span write at line
146-148 overwrites the single-character text with `"||"`). -/
theorem C9_token_text_violations :
    tokenize "a|b" = .ok [⟨.tok_symbol, some "a"⟩, ⟨.tok_consumable, none⟩,
      ⟨.tok_symbol, some "b"⟩] ∧
    tokenize "a||b" = .ok [⟨.tok_symbol, some "a"⟩, ⟨.tok_concat, some "||"⟩,
      ⟨.tok_symbol, some "b"⟩] ∧
    ("||" : String).length = 2 :=
  ⟨rfl, rfl, rfl⟩

/-! ### C1: right-associativity of chained binary operators. -/

/-- C1: `"a-b-c"` tokenizes to five tokens, treeifies to
`bin(minus, a, bin(minus, b, c))`, and under any contract where
`bin(minus, x, y) = x - y` and `load` gives `a = 5`, `b = 3`, `c = 1`,
evaluation returns `5 - (3 - 1) = 3` (for either of the two
argument-evaluation orders C++ permits in `bin_t::eval`). -/
theorem C1_right_assoc :
    tokenize "a-b-c" = .ok [⟨.tok_symbol, some "a"⟩, ⟨.tok_minus, some "-"⟩,
      ⟨.tok_symbol, some "b"⟩, ⟨.tok_minus, some "-"⟩, ⟨.tok_symbol, some "c"⟩] ∧
    treeify [⟨.tok_symbol, some "a"⟩, ⟨.tok_minus, some "-"⟩, ⟨.tok_symbol, some "b"⟩,
      ⟨.tok_minus, some "-"⟩, ⟨.tok_symbol, some "c"⟩] =
      .astR (some (.bin_t .tok_minus (.var_t "a")
        (.bin_t .tok_minus (.var_t "b") (.var_t "c")))) ∧
    ∀ (σ : Type) (ct : st_callback_table σ) (ord : EvalOrder) (s0 : σ) (fuel : Nat),
      (∀ s, (ct.load "a" s).1 = 5) → (∀ s, (ct.load "b" s).1 = 3) →
      (∀ s, (ct.load "c" s).1 = 1) →
      (∀ s x y, (ct.bin .tok_minus x y s).1 = x - y) →
      3 ≤ fuel →
      ∃ s3, eval fuel ord ct (.bin_t .tok_minus (.var_t "a")
        (.bin_t .tok_minus (.var_t "b") (.var_t "c"))) s0 = some (3, s3) := by
  refine ⟨rfl, rfl, ?_⟩
  intro σ ct ord s0 fuel ha hb hc hbin hfuel
  obtain ⟨k, rfl⟩ : ∃ k, fuel = k + 1 + 1 + 1 := ⟨fuel - 3, by omega⟩
  cases ord with
  | left_first =>
    rcases hLa : ct.load "a" s0 with ⟨ra, sa⟩
    rcases hLb : ct.load "b" sa with ⟨rb, sb⟩
    rcases hLc : ct.load "c" sb with ⟨rc, sc⟩
    rcases hB1 : ct.bin .tok_minus rb rc sc with ⟨r1, s1⟩
    rcases hB2 : ct.bin .tok_minus ra r1 s1 with ⟨r2, s2⟩
    have hra : ra = 5 := by have := ha s0; rw [hLa] at this; simpa using this
    have hrb : rb = 3 := by have := hb sa; rw [hLb] at this; simpa using this
    have hrc : rc = 1 := by have := hc sb; rw [hLc] at this; simpa using this
    have hr1 : r1 = rb - rc := by have := hbin sc rb rc; rw [hB1] at this; simpa using this
    have hr2 : r2 = ra - r1 := by have := hbin s1 ra r1; rw [hB2] at this; simpa using this
    refine ⟨s2, ?_⟩
    simp only [eval, hLa, hLb, hLc, hB1, hB2, Option.some.injEq, Prod.mk.injEq,
      and_true]
    rw [hr2, hr1, hra, hrb, hrc]
  | right_first =>
    rcases hLc : ct.load "c" s0 with ⟨rc, sc⟩
    rcases hLb : ct.load "b" sc with ⟨rb, sb⟩
    rcases hB1 : ct.bin .tok_minus rb rc sb with ⟨r1, s1⟩
    rcases hLa : ct.load "a" s1 with ⟨ra, sa⟩
    rcases hB2 : ct.bin .tok_minus ra r1 sa with ⟨r2, s2⟩
    have hrc : rc = 1 := by have := hc s0; rw [hLc] at this; simpa using this
    have hrb : rb = 3 := by have := hb sc; rw [hLb] at this; simpa using this
    have hr1 : r1 = rb - rc := by have := hbin sb rb rc; rw [hB1] at this; simpa using this
    have hra : ra = 5 := by have := ha s1; rw [hLa] at this; simpa using this
    have hr2 : r2 = ra - r1 := by have := hbin sa ra r1; rw [hB2] at this; simpa using this
    refine ⟨s2, ?_⟩
    simp only [eval, hLa, hLb, hLc, hB1, hB2, Option.some.injEq, Prod.mk.injEq,
      and_true]
    rw [hr2, hr1, hra, hrb, hrc]

/-- Witness for `C1_right_assoc`: a concrete pure contract with the
required values. -/
theorem C1_right_assoc_witness :
    ∃ s3, eval 3 .left_first
      (pureCB (fun v => if v = "a" then 5 else if v = "b" then 3 else 1)
        (fun _ x y => x - y) (fun _ x => x) (fun _ _ => 0) (fun _ _ _ => 0))
      (.bin_t .tok_minus (.var_t "a") (.bin_t .tok_minus (.var_t "b") (.var_t "c")))
      () = some (3, s3) :=
  C1_right_assoc.2.2 Unit
    (pureCB (fun v => if v = "a" then 5 else if v = "b" then 3 else 1)
      (fun _ x y => x - y) (fun _ x => x) (fun _ _ => 0) (fun _ _ _ => 0))
    .left_first () 3
    (fun _ => rfl) (fun _ => rfl) (fun _ => rfl) (fun _ _ _ => rfl) (by omega)

/-! ### C8: order of contract calls during evaluation.

The recording contract only appends to its state, so every evaluation's
effect on the state is to append a trace that does not depend on the
starting state.  `eval_recCB_shift` makes that precise. -/

theorem eval_recCB_shift :
    ∀ (fuel : Nat) (ord : EvalOrder) (L : String → ref)
      (B : token_type → ref → ref → ref) (U : token_type → ref → ref)
      (F : String → List ref → ref) (C : String → token_type → token_type → ref),
      (∀ (t : st_t) (s : List Event),
        eval fuel ord (recCB L B U F C) t s =
          Option.map (fun p => (p.1, s ++ p.2)) (eval fuel ord (recCB L B U F C) t [])) ∧
      (∀ (vs : List st_t) (s : List Event),
        list_eval fuel ord (recCB L B U F C) vs s =
          Option.map (fun p => (p.1, s ++ p.2)) (list_eval fuel ord (recCB L B U F C) vs [])) := by
  intro fuel
  induction fuel with
  | zero => intro ord L B U F C; exact ⟨fun t s => rfl, fun vs s => rfl⟩
  | succ fuel ih =>
    intro ord L B U F C
    obtain ⟨ihE, ihL⟩ := ih ord L B U F C
    constructor
    · intro t s
      cases t with
      | var_t v => simp [eval, recCB]
      | value_t ty restr v => simp [eval, recCB]
      | set_t name val =>
        simp only [eval]
        rw [ihE val s]
        cases hv : eval fuel ord (recCB L B U F C) val [] with
        | none => simp
        | some p => cases p with | mk r s1 => simp [recCB]
      | list_t vs => simp [eval]
      | call_t fname args =>
        cases args with
        | none => simp [eval]
        | some a =>
          cases a with
          | list_t vs =>
            simp only [eval]
            rw [ihL vs s]
            cases hv : list_eval fuel ord (recCB L B U F C) vs [] with
            | none => simp
            | some p => cases p with | mk rs s1 => simp [recCB]
          | var_t v => simp [eval]
          | value_t ty restr v => simp [eval]
          | set_t n v => simp [eval]
          | call_t f ar => simp [eval]
          | bin_t o l r => simp [eval]
      | bin_t op l r =>
        cases ord with
        | left_first =>
          simp only [eval]
          rw [ihE l s]
          cases hl : eval fuel .left_first (recCB L B U F C) l [] with
          | none => simp
          | some p =>
            cases p with | mk rl s1 =>
            simp only [Option.map_some']
            rw [ihE r (s ++ s1), ihE r s1]
            cases hr : eval fuel .left_first (recCB L B U F C) r [] with
            | none => simp
            | some q => cases q with | mk rr s2 => simp [recCB]
        | right_first =>
          simp only [eval]
          rw [ihE r s]
          cases hr : eval fuel .right_first (recCB L B U F C) r [] with
          | none => simp
          | some p =>
            cases p with | mk rr s1 =>
            simp only [Option.map_some']
            rw [ihE l (s ++ s1), ihE l s1]
            cases hl : eval fuel .right_first (recCB L B U F C) l [] with
            | none => simp
            | some q => cases q with | mk rl s2 => simp [recCB]
    · intro vs s
      cases vs with
      | nil => simp [list_eval]
      | cons v vs2 =>
        simp only [list_eval]
        rw [ihE v s]
        cases hv : eval fuel ord (recCB L B U F C) v [] with
        | none => simp
        | some p =>
          cases p with | mk r s1 =>
          simp only [Option.map_some']
          rw [ihL vs2 (s ++ s1), ihL vs2 s1]
          cases hl : list_eval fuel ord (recCB L B U F C) vs2 [] with
          | none => simp
          | some q => cases q with | mk rs s2 => simp

/-- C8 counterexample: with the `right_first` argument-evaluation order —
which C++ permits for the call `ct->bin(op_token, lhs->eval(ct),
rhs->eval(ct))` — evaluating the AST of `"x-y"` under the recording
contract produces the trace `load("y"), load("x"), bin(..)`: the left
operand is *not* evaluated before the right one. -/
theorem C8_right_first_order_observed :
    treeify [⟨.tok_symbol, some "x"⟩, ⟨.tok_minus, some "-"⟩, ⟨.tok_symbol, some "y"⟩] =
      .astR (some (.bin_t .tok_minus (.var_t "x") (.var_t "y"))) ∧
    eval 2 .right_first
      (recCB (fun _ => 0) (fun _ _ _ => 0) (fun _ x => x) (fun _ _ => 0) (fun _ _ _ => 0))
      (.bin_t .tok_minus (.var_t "x") (.var_t "y")) [] =
      some (0, [.loadE "y", .loadE "x", .binE .tok_minus 0 0]) ∧
    ([Event.loadE "y", .loadE "x", .binE .tok_minus 0 0] ≠
      [Event.loadE "x", .loadE "y", .binE .tok_minus 0 0]) :=
  ⟨rfl, rfl, by decide⟩

/-- C8 amended: for a `Call` node the arguments are evaluated strictly
left to right and then the single `fcall` is made, under *both*
argument-evaluation orders (the `list_eval` loop is fully sequenced);
for a `BinaryOp` node both operands are each fully evaluated exactly
once before the single `bin` call, but their relative order is the
(C++-unspecified) order of the `ct->bin` argument evaluations, given by
the `EvalOrder` parameter. -/
theorem C8_call_order :
    tokenize "f(a, b)" = .ok [⟨.tok_symbol, some "f"⟩, ⟨.tok_lparen, some "("⟩,
      ⟨.tok_symbol, some "a"⟩, ⟨.tok_comma, some ","⟩, ⟨.tok_symbol, some "b"⟩,
      ⟨.tok_rparen, some ")"⟩] ∧
    treeify [⟨.tok_symbol, some "f"⟩, ⟨.tok_lparen, some "("⟩, ⟨.tok_symbol, some "a"⟩,
      ⟨.tok_comma, some ","⟩, ⟨.tok_symbol, some "b"⟩, ⟨.tok_rparen, some ")"⟩] =
      .astR (some (.call_t "f" (some (.list_t [.var_t "a", .var_t "b"])))) ∧
    (∀ (ord : EvalOrder) (L : String → ref) (B : token_type → ref → ref → ref)
       (U : token_type → ref → ref) (F : String → List ref → ref)
       (C : String → token_type → token_type → ref),
      eval 4 ord (recCB L B U F C)
        (.call_t "f" (some (.list_t [.var_t "a", .var_t "b"]))) [] =
        some (F "f" [L "a", L "b"],
          [.loadE "a", .loadE "b", .fcallE "f" [L "a", L "b"]])) ∧
    (∀ (fuel : Nat) (ord : EvalOrder) (L : String → ref)
       (B : token_type → ref → ref → ref) (U : token_type → ref → ref)
       (F : String → List ref → ref) (C : String → token_type → token_type → ref)
       (op : token_type) (l r : st_t) (vl vr : ref) (dl dr : List Event),
      eval fuel ord (recCB L B U F C) l [] = some (vl, dl) →
      eval fuel ord (recCB L B U F C) r [] = some (vr, dr) →
      eval (fuel + 1) ord (recCB L B U F C) (.bin_t op l r) [] =
        some (B op vl vr,
          (match ord with
           | .left_first => dl ++ dr
           | .right_first => dr ++ dl) ++ [.binE op vl vr])) := by
  refine ⟨rfl, rfl, ?_, ?_⟩
  · intro ord L B U F C
    cases ord <;> rfl
  · intro fuel ord L B U F C op l r vl vr dl dr hl hr
    cases ord with
    | left_first =>
      have hs := (eval_recCB_shift fuel .left_first L B U F C).1 r dl
      simp only [eval, hl, hs, hr, Option.map_some']
      simp [recCB]
    | right_first =>
      have hs := (eval_recCB_shift fuel .right_first L B U F C).1 l dr
      simp only [eval, hr, hs, hl, Option.map_some']
      simp [recCB]

/-- Witness for `C8_call_order`: the bracketing clause applied to the
AST of `"x-y"` at concrete contract functions. -/
theorem C8_call_order_witness :
    eval 2 .left_first
      (recCB (fun _ => 0) (fun _ _ _ => 7) (fun _ x => x) (fun _ _ => 0) (fun _ _ _ => 0))
      (.bin_t .tok_minus (.var_t "x") (.var_t "y")) [] =
      some (7, [.loadE "x"] ++ [.loadE "y"] ++ [.binE .tok_minus 0 0]) := by
  have h := C8_call_order.2.2.2 1 .left_first
    (fun _ => 0) (fun _ _ _ => 7) (fun _ x => x) (fun _ _ => 0) (fun _ _ _ => 0)
    .tok_minus (.var_t "x") (.var_t "y") 0 0 [.loadE "x"] [.loadE "y"] rfl rfl
  simpa using h

/-! ### C9: token-text invariant of `tokenize` (amended form).

The amended invariant: every token in a successfully returned sequence
that is not a `tok_consumable` carries non-null text.  The proof tracks
the scanner state: all tokens strictly behind the tail already satisfy
the property, and so does the tail itself once `finalized` is set. -/

/-- The per-token property: non-consumables carry text. -/
def TokP (t : token_t) : Prop := t.token ≠ .tok_consumable → t.value ≠ none

/-- Scanner-state invariant for the C9 proof: every token strictly
behind the tail satisfies `TokP`, and once `finalized` is set so does
the tail. -/
def TokInv (st : TState) : Prop :=
  (∀ t ∈ st.toksRev.tail, TokP t) ∧
  (st.finalized = true → ∀ t ∈ st.toksRev, TokP t)

theorem tok_mark_nil (tk : token_type) : tok_mark tk [] = [] := by
  simp [tok_mark]

theorem tok_mark_eq (tk : token_type) (t : token_t) (ts : List token_t) :
    tok_mark tk (t :: ts) = t :: ts ∨
    tok_mark tk (t :: ts) = ⟨.tok_consumable, t.value⟩ :: ts := by
  by_cases hb : tk = .tok_hex ∨ tk = .tok_bin
  · by_cases hn : t.token = .tok_number
    · exact Or.inr (by simp [tok_mark, hb, hn])
    · exact Or.inl (by simp [tok_mark, hb, hn])
  · exact Or.inl (by simp [tok_mark, hb])

theorem tok_mark_clauses {st : TState} (hinv : TokInv st) (tk : token_type) :
    (∀ u ∈ (tok_mark tk st.toksRev).tail, TokP u) ∧
    (st.finalized = true → ∀ u ∈ tok_mark tk st.toksRev, TokP u) := by
  obtain ⟨h1, h2⟩ := hinv
  cases hrev : st.toksRev with
  | nil => exact ⟨by simp [tok_mark_nil], by simp [tok_mark_nil]⟩
  | cons t ts =>
    rw [hrev] at h1 h2
    simp only [List.tail_cons] at h1
    rcases tok_mark_eq tk t ts with heq | heq <;> rw [heq]
    · exact ⟨by simpa using h1, h2⟩
    · refine ⟨by simpa using h1, ?_⟩
      intro hf u hu
      rcases List.mem_cons.1 hu with rfl | hu2
      · intro hne; exact absurd rfl hne
      · exact h2 hf u (List.mem_cons_of_mem _ hu2)

theorem tok_finalize_prev_inr {cs : List Char} {i : Nat} {st : TState}
    {toks1 : List token_t} {tk restrict0 : token_type} {r : TokenizeResult}
    (h : tok_finalize_prev cs i st toks1 tk restrict0 = .inr r) : r = .crash := by
  unfold tok_finalize_prev at h
  repeat' split at h
  all_goals simp_all

theorem tok_finalize_prev_inl {cs : List Char} {i : Nat} {st : TState}
    {toks1 : List token_t} {tk restrict0 : token_type}
    {toks2 : List token_t} {r2 : token_type} {f2 : Bool}
    (h1 : ∀ t ∈ toks1.tail, TokP t)
    (h2 : st.finalized = true → ∀ t ∈ toks1, TokP t)
    (h : tok_finalize_prev cs i st toks1 tk restrict0 = .inl (toks2, r2, f2)) :
    ∀ t ∈ toks2, TokP t := by
  cases toks1 with
  | nil =>
    simp only [tok_finalize_prev] at h
    split at h
    · simp at h
    · simp only [Sum.inl.injEq, Prod.mk.injEq] at h
      obtain ⟨rfl, -, -⟩ := h
      simp
  | cons t ts =>
    simp only [tok_finalize_prev] at h
    simp only [List.tail_cons] at h1
    by_cases hcons : t.token = .tok_consumable
    · rw [if_pos hcons] at h
      by_cases hhb : tk = .tok_hex ∨ tk = .tok_bin
      · rw [if_pos hhb] at h
        simp only [Sum.inl.injEq, Prod.mk.injEq] at h
        obtain ⟨rfl, -, -⟩ := h
        exact h1
      · rw [if_neg hhb] at h
        simp only [Sum.inl.injEq, Prod.mk.injEq] at h
        obtain ⟨rfl, -, -⟩ := h
        intro u hu
        rcases List.mem_cons.1 hu with rfl | hu2
        · intro hne; exact absurd hcons hne
        · exact h1 u hu2
    · rw [if_neg hcons] at h
      by_cases hfin : st.finalized = false
      · rw [if_pos hfin] at h
        simp only [Sum.inl.injEq, Prod.mk.injEq] at h
        obtain ⟨rfl, -, -⟩ := h
        intro u hu
        rcases List.mem_cons.1 hu with rfl | hu2
        · intro _; simp
        · exact h1 u hu2
      · rw [if_neg hfin] at h
        simp only [Sum.inl.injEq, Prod.mk.injEq] at h
        obtain ⟨rfl, -, -⟩ := h
        have hftrue : st.finalized = true := by
          cases hsf : st.finalized
          · exact absurd hsf hfin
          · rfl
        exact h2 hftrue

theorem tok_switch_inr {i : Nat} {c : Char} {st : TState} {tk : token_type}
    {toks2 : List token_t} {r2 : token_type} {f2 : Bool} {r : TokenizeResult}
    (h : tok_switch i c st tk toks2 r2 f2 = .inr r) :
    r = .crash ∨ r = .lexError i c := by
  unfold tok_switch at h
  repeat' split at h
  all_goals simp_all

theorem tok_switch_inl {i : Nat} {c : Char} {st : TState} {tk : token_type}
    {toks2 : List token_t} {r2 : token_type} {f2 : Bool} {st1 : TState}
    (hall : ∀ t ∈ toks2, TokP t)
    (h : tok_switch i c st tk toks2 r2 f2 = .inl st1) : TokInv st1 := by
  unfold tok_switch at h
  repeat' split at h
  all_goals simp at h
  all_goals subst h
  all_goals simp only [TokInv, List.tail_cons]
  all_goals constructor
  all_goals
    first
      | exact hall
      | (intro hf; simp at hf)
      | (intro u hu; exact hall u (List.mem_cons_of_mem _ hu))
      | (intro u hu; exact hall u (List.mem_of_mem_tail hu))
      | (intro hf u hu
         rcases List.mem_cons.1 hu with rfl | hu2
         · intro _; simp
         · first
             | exact hall u hu2
             | exact hall u (List.mem_cons_of_mem _ hu2))
      | (intro hf; exact hall)

theorem tok_close_inr {cs : List Char} {i : Nat} {c : Char} {st : TState}
    {toks1 : List token_t} {tk restrict0 : token_type} {r : TokenizeResult}
    (h : tok_close cs i c st toks1 tk restrict0 = .inr r) :
    r = .crash ∨ r = .lexError i c := by
  unfold tok_close at h
  cases htfp : tok_finalize_prev cs i st toks1 tk restrict0 with
  | inr r0 =>
    rw [htfp] at h
    simp at h
    subst h
    exact Or.inl (tok_finalize_prev_inr htfp)
  | inl trip =>
    obtain ⟨toks2, r2, f2⟩ := trip
    rw [htfp] at h
    simp at h
    exact tok_switch_inr h

theorem tok_close_inl {cs : List Char} {i : Nat} {c : Char} {st : TState}
    {toks1 : List token_t} {tk restrict0 : token_type} {st1 : TState}
    (h1 : ∀ t ∈ toks1.tail, TokP t)
    (h2 : st.finalized = true → ∀ t ∈ toks1, TokP t)
    (h : tok_close cs i c st toks1 tk restrict0 = .inl st1) : TokInv st1 := by
  unfold tok_close at h
  cases htfp : tok_finalize_prev cs i st toks1 tk restrict0 with
  | inr r0 => rw [htfp] at h; simp at h
  | inl trip =>
    obtain ⟨toks2, r2, f2⟩ := trip
    rw [htfp] at h
    simp at h
    exact tok_switch_inl (tok_finalize_prev_inl h1 h2 htfp) h

theorem tokstep_inr_no_ok {cs : List Char} {i : Nat} {p c : Char} {st : TState}
    {r : TokenizeResult} (h : tokstep cs i p c st = .inr r) :
    ∀ toks, r ≠ .ok toks := by
  intro toks
  simp only [tokstep] at h
  repeat' split at h
  all_goals
    first
      | (simp at h; subst h; simp)
      | (simp at h)
      | (rcases tok_close_inr h with rfl | rfl <;> simp)

theorem tokstep_inl_inv {cs : List Char} {i : Nat} {p c : Char} {st st1 : TState}
    (hinv : TokInv st) (h : tokstep cs i p c st = .inl st1) : TokInv st1 := by
  have hm := tok_mark_clauses hinv
  simp only [tokstep] at h
  repeat' split at h
  all_goals
    first
      | (simp at h
         done)
      | (simp only [Sum.inl.injEq] at h
         subst h
         exact ⟨by simpa using (hm _).1, by simpa using (hm _).2⟩)
      | exact tok_close_inl (hm _).1 (hm _).2 h

theorem tokgo_ok_inv :
    ∀ (rest cs : List Char) (i : Nat) (p : Char) (st : TState) (toks : List token_t),
      TokInv st → tokgo cs i p rest st = .ok toks → ∀ t ∈ toks, TokP t := by
  intro rest
  induction rest with
  | nil =>
    intro cs i p st toks hinv h
    simp only [tokgo] at h
    cases hf : st.finalized with
    | true =>
      simp [hf] at h
      subst h
      intro t ht
      exact hinv.2 hf t (List.mem_reverse.1 ht)
    | false =>
      simp [hf] at h
      cases hrev : st.toksRev with
      | nil => rw [hrev] at h; simp at h
      | cons t ts =>
        rw [hrev] at h
        simp at h
        subst h
        intro u hu
        rcases List.mem_append.1 hu with hu2 | hu2
        · have h1 := hinv.1
          rw [hrev] at h1
          exact h1 u (by simpa using List.mem_reverse.1 hu2)
        · have : u = ⟨t.token, some (strSpan cs st.token_start i)⟩ := by simpa using hu2
          subst this
          intro _
          simp
  | cons c2 rest ih =>
    intro cs i p st toks hinv h
    cases hfind : st.finding with
    | some f =>
      simp only [tokgo, hfind] at h
      by_cases hc : c2 = f
      · rw [if_pos hc] at h
        exact ih cs (i+1) c2 { st with finding := none, opn := false } toks
          ⟨hinv.1, hinv.2⟩ h
      · rw [if_neg hc] at h
        exact ih cs (i+1) c2 st toks hinv h
    | none =>
      simp only [tokgo, hfind] at h
      cases hstep : tokstep cs i p c2 st with
      | inl st2 =>
        rw [hstep] at h
        exact ih cs (i+1) c2 st2 toks (tokstep_inl_inv hinv hstep) h
      | inr r =>
        rw [hstep] at h
        exact absurd h (tokstep_inr_no_ok hstep toks)

/-- C9 amended: in every token sequence successfully returned by
`tokenize`, every token that is not a `tok_consumable` has non-null
text.  (The original claim fails twice: consumable tokens can keep null
text, and structural tokens can carry more than one character, see
`C9_token_text_violations`.) -/
theorem C9_nonconsumable_text :
    ∀ (s : String) (toks : List token_t), tokenize s = .ok toks →
      ∀ t ∈ toks, t.token ≠ .tok_consumable → t.value ≠ none := by
  intro s toks h t ht
  exact tokgo_ok_inv s.data s.data 0 (Char.ofNat 0)
    { toksRev := [], opn := false, finalized := true, finding := none,
      restrict_type := .tok_undef, token_start := 0 } toks
    ⟨by simp, by intro _; simp⟩ h t ht

/-- Witness for `C9_nonconsumable_text` on `tokenize "a"`. -/
theorem C9_nonconsumable_text_witness :
    (⟨.tok_symbol, some "a"⟩ : token_t).value ≠ none :=
  C9_nonconsumable_text "a" [⟨.tok_symbol, some "a"⟩] rfl
    ⟨.tok_symbol, some "a"⟩ (by simp) (by simp)

/-! ### C6: totality of `treeify` on well-formed nonempty sequences.

`WFtok` is the data-model invariant of a lexer-produced token: symbol,
number and string tokens carry text (a string token's text includes its
quotes, hence is nonempty).  On such sequences the parser neither
crashes nor runs out of the fuel `parser_fuel` supplies. -/

/-- Well-formedness of a single token. -/
def WFtok (t : token_t) : Bool :=
  match t.token, t.value with
  | .tok_symbol, none => false
  | .tok_number, none => false
  | .tok_string, none => false
  | .tok_string, some v => v.length != 0
  | _, _ => true

/-- Well-formedness of a token sequence. -/
def WFs (s : List token_t) : Bool := s.all WFtok

/-- What a grammar rule does on a well-formed cursor: fail leaving the
cursor alone, or succeed consuming at least one token and leaving a
well-formed rest. -/
def RuleGood (res : PRes) (s : List token_t) : Prop :=
  res = .fail s ∨ ∃ t r, res = .ok t r ∧ r.length < s.length ∧ WFs r = true

theorem WFs_cons {t : token_t} {r : List token_t} (h : WFs (t :: r) = true) :
    WFtok t = true ∧ WFs r = true := by
  simpa [WFs] using h

theorem WFtok_value {t : token_t} (h : WFtok t = true)
    (hk : t.token = .tok_symbol ∨ t.token = .tok_number ∨ t.token = .tok_string) :
    t.value ≠ none := by
  intro hv
  unfold WFtok at h
  rcases hk with hk | hk | hk <;> rw [hk, hv] at h <;> simp at h

theorem parse_variable_good {s : List token_t} (hwf : WFs s = true) (hne : s ≠ []) :
    parse_variable s = .fail s ∨
    ∃ vn r, parse_variable s = .ok (.var_t vn) r ∧ r.length < s.length ∧ WFs r = true := by
  cases s with
  | nil => exact absurd rfl hne
  | cons t r =>
    obtain ⟨hwt, hwr⟩ := WFs_cons hwf
    simp only [parse_variable]
    by_cases hs : t.token = .tok_symbol
    · rw [if_pos hs]
      cases hv : t.value with
      | none => exact absurd hv (WFtok_value hwt (Or.inl hs))
      | some v => exact Or.inr ⟨v, r, rfl, by simp, hwr⟩
    · rw [if_neg hs]
      exact Or.inl rfl

theorem parse_value_good {s : List token_t} (restriction : token_type)
    (hwf : WFs s = true) (hne : s ≠ []) :
    RuleGood (parse_value s restriction) s := by
  cases s with
  | nil => exact absurd rfl hne
  | cons t r =>
    obtain ⟨hwt, hwr⟩ := WFs_cons hwf
    simp only [parse_value]
    by_cases hs : t.token = .tok_symbol ∨ t.token = .tok_number ∨ t.token = .tok_string
    · rw [if_pos hs]
      cases hv : t.value with
      | none => exact absurd hv (WFtok_value hwt hs)
      | some v => exact Or.inr ⟨_, r, rfl, by simp, hwr⟩
    · rw [if_neg hs]
      exact Or.inl rfl

theorem parse_restricted_good {s : List token_t} (hwf : WFs s = true) (hne : s ≠ []) :
    RuleGood (parse_restricted s) s := by
  cases s with
  | nil => exact absurd rfl hne
  | cons t r =>
    obtain ⟨hwt, hwr⟩ := WFs_cons hwf
    simp only [parse_restricted]
    by_cases hhb : t.token = .tok_hex ∨ t.token = .tok_bin
    · rw [if_pos hhb]
      cases r with
      | nil =>
        by_cases hhex : t.token = .tok_hex
        · rw [if_pos hhex]
          exact Or.inr ⟨_, [], rfl, by simp, by simp [WFs]⟩
        · rw [if_neg hhex]
          exact Or.inl rfl
      | cons t2 r2 =>
        rcases parse_value_good t.token hwr (by simp) with hfail | ⟨node, rr, hok, hlen, hwfr⟩
        · simp only [hfail]
          by_cases hhex : t.token = .tok_hex
          · rw [if_pos hhex]
            exact Or.inr ⟨_, t2 :: r2, rfl, by simp, hwr⟩
          · rw [if_neg hhex]
            exact Or.inl rfl
        · simp only [hok]
          refine Or.inr ⟨node, rr, rfl, ?_, hwfr⟩
          simp only [List.length_cons] at hlen ⊢
          omega
    · rw [if_neg hhb]
      exact Or.inl rfl

theorem POrElse_good {r : PRes} {f : List token_t → PRes} {s : List token_t}
    (hr : RuleGood r s) (hf : RuleGood (f s) s) : RuleGood (POrElse r f) s := by
  rcases hr with hfail | ⟨t, rr, hok, hlen, hwf⟩
  · rw [hfail]
    simpa [POrElse] using hf
  · rw [hok]
    exact Or.inr ⟨t, rr, by simp [POrElse], hlen, hwf⟩

theorem parse_expr_succ (fuel : Nat) (s : List token_t) (ab as : Bool) :
    parse_expr (fuel + 1) s ab as =
    POrElse (if ab then parse_tok_binary_expr fuel s else .fail s) (fun s1 =>
    POrElse (if as then parse_set fuel s1 else .fail s1) (fun s2 =>
    POrElse (parse_fcall fuel s2) (fun s3 =>
    POrElse (parse_parenthesized fuel s3) (fun s4 =>
    POrElse (parse_variable s4) (fun s5 =>
    POrElse (parse_restricted s5) (fun s6 =>
    parse_value s6 .tok_undef)))))) := rfl

theorem parse_set_succ (fuel : Nat) (s : List token_t) :
    parse_set (fuel + 1) s =
    (match parse_variable s with
     | .crash => .crash
     | .outOfFuel => .outOfFuel
     | .fail _ => .fail s
     | .ok v r =>
       match v with
       | .var_t varname =>
         (match r with
          | [] => .fail s
          | t :: r2 =>
            match r2 with
            | [] => .fail s
            | _ :: _ =>
              if t.token = .tok_equal then
                (match parse_expr fuel r2 true false with
                 | .ok val r3 => .ok (.set_t varname val) r3
                 | .fail _ => .fail s
                 | .crash => .crash
                 | .outOfFuel => .outOfFuel)
              else .fail s)
       | _ => .crash) := rfl

theorem parse_parenthesized_succ (fuel : Nat) (s : List token_t) :
    parse_parenthesized (fuel + 1) s =
    (match s with
     | [] => .crash
     | t :: r =>
       if t.token = .tok_lparen then
         (match r with
          | [] => .fail (t :: r)
          | _ :: _ =>
            match parse_expr fuel r true false with
            | .fail _ => .fail (t :: r)
            | .crash => .crash
            | .outOfFuel => .outOfFuel
            | .ok v r2 =>
              match r2 with
              | [] => .fail (t :: r)
              | t2 :: r3 => if t2.token = .tok_rparen then .ok v r3 else .fail (t :: r))
       else .fail (t :: r)) := rfl

theorem parse_tok_binary_expr_succ (fuel : Nat) (s : List token_t) :
    parse_tok_binary_expr (fuel + 1) s =
    (match parse_expr fuel s false false with
     | .fail _ => .fail s
     | .crash => .crash
     | .outOfFuel => .outOfFuel
     | .ok lhs r =>
       match r with
       | [] => .fail s
       | _ :: _ =>
         match parse_tok_binary_expr_post_lhs fuel r lhs with
         | .ok res r2 => .ok res r2
         | .fail _ => .fail s
         | .crash => .crash
         | .outOfFuel => .outOfFuel) := rfl

theorem parse_tok_binary_expr_post_lhs_succ (fuel : Nat) (s : List token_t) (lhs : st_t) :
    parse_tok_binary_expr_post_lhs (fuel + 1) s lhs =
    (match s with
     | [] => .crash
     | t :: r =>
       if t.token = .tok_plus ∨ t.token = .tok_minus ∨ t.token = .tok_mul ∨
          t.token = .tok_div ∨ t.token = .tok_concat then
         (match r with
          | [] => .fail (t :: r)
          | _ :: _ =>
            match parse_expr fuel r true false with
            | .ok rhs r2 => .ok (.bin_t t.token lhs rhs) r2
            | .fail _ => .fail (t :: r)
            | .crash => .crash
            | .outOfFuel => .outOfFuel)
       else .fail (t :: r)) := rfl

theorem csv_loop_succ (fuel : Nat) (values : List st_t) (r : List token_t) :
    csv_loop (fuel + 1) values r =
    (match r with
     | [] => .done values []
     | _ :: _ =>
       match parse_expr fuel r true false with
       | .fail r1 => .done values r1
       | .crash => .crash
       | .outOfFuel => .outOfFuel
       | .ok node r2 =>
         match r2 with
         | [] => .done (values ++ [node]) []
         | t :: r3 =>
           if t.token = .tok_comma then csv_loop fuel (values ++ [node]) r3
           else .done (values ++ [node]) (t :: r3)) := rfl

theorem parse_csv_succ (fuel : Nat) (s : List token_t) :
    parse_csv (fuel + 1) s =
    (match csv_loop fuel [] s with
     | .crash => .crash
     | .outOfFuel => .outOfFuel
     | .done values r =>
       match values with
       | [] => .fail s
       | _ :: _ => .ok (.list_t values) r) := rfl

theorem parse_fcall_succ (fuel : Nat) (s : List token_t) :
    parse_fcall (fuel + 1) s =
    (match s with
     | [] => .crash
     | t :: r =>
       if t.token = .tok_symbol then
         (match t.value with
          | none => .crash
          | some fname =>
            match r with
            | [] => .fail (t :: r)
            | t2 :: r2 =>
              match r2 with
              | [] => .fail (t :: r)
              | _ :: _ =>
                if t2.token = .tok_lparen then
                  (match parse_csv fuel r2 with
                   | .crash => .crash
                   | .outOfFuel => .outOfFuel
                   | .ok args r3 =>
                     (match r3 with
                      | [] => .fail (t :: r)
                      | t3 :: r4 =>
                        if t3.token = .tok_rparen then .ok (.call_t fname (some args)) r4
                        else .fail (t :: r))
                   | .fail r3 =>
                     (match r3 with
                      | [] => .fail (t :: r)
                      | t3 :: r4 =>
                        if t3.token = .tok_rparen then .ok (.call_t fname none) r4
                        else .fail (t :: r)))
                else .fail (t :: r))
       else .fail (t :: r)) := rfl

set_option maxHeartbeats 1000000 in
theorem parser_total :
    ∀ fuel : Nat,
      (∀ (s : List token_t) (ab as : Bool), WFs s = true → s ≠ [] →
        5 * s.length + (if ab then 3 else 1) < fuel →
        RuleGood (parse_expr fuel s ab as) s) ∧
      (∀ s : List token_t, WFs s = true → s ≠ [] → 5 * s.length < fuel →
        RuleGood (parse_set fuel s) s) ∧
      (∀ s : List token_t, WFs s = true → s ≠ [] → 5 * s.length < fuel →
        RuleGood (parse_parenthesized fuel s) s) ∧
      (∀ s : List token_t, WFs s = true → s ≠ [] → 5 * s.length + 2 < fuel →
        RuleGood (parse_tok_binary_expr fuel s) s) ∧
      (∀ (s : List token_t) (lhs : st_t), WFs s = true → s ≠ [] → 5 * s.length < fuel →
        RuleGood (parse_tok_binary_expr_post_lhs fuel s lhs) s) ∧
      (∀ s : List token_t, WFs s = true → 5 * s.length + 5 < fuel →
        (parse_csv fuel s = .fail s ∨
         ∃ vs r, parse_csv fuel s = .ok (.list_t vs) r ∧ r.length ≤ s.length ∧
           WFs r = true)) ∧
      (∀ (vals : List st_t) (r : List token_t), WFs r = true → 5 * r.length + 4 < fuel →
        ∃ vs r2, csv_loop fuel vals r = .done vs r2 ∧ r2.length ≤ r.length ∧
          WFs r2 = true) ∧
      (∀ s : List token_t, WFs s = true → s ≠ [] → 5 * s.length < fuel →
        RuleGood (parse_fcall fuel s) s) := by
  intro fuel
  induction fuel with
  | zero =>
    refine ⟨?_, ?_, ?_, ?_, ?_, ?_, ?_, ?_⟩ <;> (intros; omega)
  | succ fuel ih =>
    obtain ⟨ihE, ihSet, ihPar, ihTB, ihPost, ihCsv, ihLoop, ihFc⟩ := ih
    refine ⟨?_, ?_, ?_, ?_, ?_, ?_, ?_, ?_⟩
    -- parse_expr
    · intro s ab as hwf hne hb
      rw [parse_expr_succ]
      refine POrElse_good ?_ (POrElse_good ?_ (POrElse_good ?_ (POrElse_good ?_
        (POrElse_good ?_ (POrElse_good ?_ ?_)))))
      · cases ab with
        | true =>
          rw [if_pos rfl]
          refine ihTB s hwf hne ?_
          simp at hb
          omega
        | false =>
          rw [if_neg (by decide)]
          exact Or.inl rfl
      · cases as with
        | true =>
          rw [if_pos rfl]
          refine ihSet s hwf hne ?_
          split at hb <;> omega
        | false =>
          rw [if_neg (by decide)]
          exact Or.inl rfl
      · exact ihFc s hwf hne (by split at hb <;> omega)
      · exact ihPar s hwf hne (by split at hb <;> omega)
      · rcases parse_variable_good hwf hne with hfail | ⟨vn, r, hok, hlen, hwfr⟩
        · exact Or.inl hfail
        · exact Or.inr ⟨_, r, hok, hlen, hwfr⟩
      · exact parse_restricted_good hwf hne
      · exact parse_value_good .tok_undef hwf hne
    -- parse_set
    · intro s hwf hne hb
      rw [parse_set_succ]
      rcases parse_variable_good hwf hne with hfail | ⟨vn, r, hok, hlen, hwfr⟩
      · simp only [hfail]
        exact Or.inl rfl
      · simp only [hok]
        cases r with
        | nil => exact Or.inl rfl
        | cons t r2 =>
          cases r2 with
          | nil => exact Or.inl rfl
          | cons t2 r3 =>
            simp only []
            by_cases heq : t.token = .tok_equal
            · rw [if_pos heq]
              have hwfr2 : WFs (t2 :: r3) = true := (WFs_cons hwfr).2
              have hb2 : 5 * (t2 :: r3).length + 3 < fuel := by
                simp only [List.length_cons] at hlen hb ⊢
                omega
              rcases ihE (t2 :: r3) true false hwfr2 (by simp)
                  (show 5 * (t2 :: r3).length + 3 < fuel from hb2) with
                hfail2 | ⟨v, r4, hok2, hlen4, hwf4⟩
              · simp only [hfail2]
                exact Or.inl rfl
              · simp only [hok2]
                refine Or.inr ⟨_, r4, rfl, ?_, hwf4⟩
                simp only [List.length_cons] at hlen4 hlen ⊢
                omega
            · rw [if_neg heq]
              exact Or.inl rfl
    -- parse_parenthesized
    · intro s hwf hne hb
      rw [parse_parenthesized_succ]
      cases s with
      | nil => exact absurd rfl hne
      | cons t r =>
        simp only []
        obtain ⟨hwt, hwr⟩ := WFs_cons hwf
        by_cases hlp : t.token = .tok_lparen
        · rw [if_pos hlp]
          cases r with
          | nil => exact Or.inl rfl
          | cons t2 r2 =>
            simp only []
            have hb2 : 5 * (t2 :: r2).length + 3 < fuel := by
              simp only [List.length_cons] at hb ⊢
              omega
            rcases ihE (t2 :: r2) true false hwr (by simp)
                (show 5 * (t2 :: r2).length + 3 < fuel from hb2) with
              hfail | ⟨v, r3, hok, hlen, hwf3⟩
            · simp only [hfail]
              exact Or.inl rfl
            · simp only [hok]
              cases r3 with
              | nil => exact Or.inl rfl
              | cons t3 r4 =>
                simp only []
                by_cases hrp : t3.token = .tok_rparen
                · rw [if_pos hrp]
                  refine Or.inr ⟨v, r4, rfl, ?_, (WFs_cons hwf3).2⟩
                  simp only [List.length_cons] at hlen ⊢
                  omega
                · rw [if_neg hrp]
                  exact Or.inl rfl
        · rw [if_neg hlp]
          exact Or.inl rfl
    -- parse_tok_binary_expr
    · intro s hwf hne hb
      rw [parse_tok_binary_expr_succ]
      rcases ihE s false false hwf hne
          (show 5 * s.length + 1 < fuel from by omega) with
        hfail | ⟨lhs, r, hok, hlen, hwfr⟩
      · simp only [hfail]
        exact Or.inl rfl
      · simp only [hok]
        cases r with
        | nil => exact Or.inl rfl
        | cons t r2 =>
          rcases ihPost (t :: r2) lhs hwfr (by simp)
              (by simp only [List.length_cons] at hlen ⊢; omega) with
            hfail2 | ⟨res, r3, hok2, hlen3, hwf3⟩
          · simp only [hfail2]
            exact Or.inl rfl
          · simp only [hok2]
            refine Or.inr ⟨res, r3, rfl, ?_, hwf3⟩
            simp only [List.length_cons] at hlen hlen3 ⊢
            omega
    -- parse_tok_binary_expr_post_lhs
    · intro s lhs hwf hne hb
      rw [parse_tok_binary_expr_post_lhs_succ]
      cases s with
      | nil => exact absurd rfl hne
      | cons t r =>
        simp only []
        obtain ⟨hwt, hwr⟩ := WFs_cons hwf
        by_cases hop : t.token = .tok_plus ∨ t.token = .tok_minus ∨ t.token = .tok_mul ∨
            t.token = .tok_div ∨ t.token = .tok_concat
        · rw [if_pos hop]
          cases r with
          | nil => exact Or.inl rfl
          | cons t2 r2 =>
            simp only []
            have hb2 : 5 * (t2 :: r2).length + 3 < fuel := by
              simp only [List.length_cons] at hb ⊢
              omega
            rcases ihE (t2 :: r2) true false hwr (by simp)
                (show 5 * (t2 :: r2).length + 3 < fuel from hb2) with
              hfail | ⟨rhs, r3, hok, hlen, hwf3⟩
            · simp only [hfail]
              exact Or.inl rfl
            · simp only [hok]
              refine Or.inr ⟨_, r3, rfl, ?_, hwf3⟩
              simp only [List.length_cons] at hlen ⊢
              omega
        · rw [if_neg hop]
          exact Or.inl rfl
    -- parse_csv
    · intro s hwf hb
      rw [parse_csv_succ]
      obtain ⟨vs, r2, hloop, hle, hwf2⟩ := ihLoop [] s hwf (by omega)
      simp only [hloop]
      cases vs with
      | nil => exact Or.inl rfl
      | cons v vs2 => exact Or.inr ⟨v :: vs2, r2, rfl, hle, hwf2⟩
    -- csv_loop
    · intro vals r hwf hb
      rw [csv_loop_succ]
      cases r with
      | nil => exact ⟨vals, [], rfl, by simp, by simp [WFs]⟩
      | cons t r0 =>
        simp only []
        have hb2 : 5 * (t :: r0).length + 3 < fuel := by
          simp only [List.length_cons] at hb ⊢
          omega
        rcases ihE (t :: r0) true false hwf (by simp)
            (show 5 * (t :: r0).length + 3 < fuel from hb2) with
          hfail | ⟨node, r2, hok, hlen, hwf2⟩
        · simp only [hfail]
          exact ⟨vals, t :: r0, rfl, le_refl _, hwf⟩
        · simp only [hok]
          cases r2 with
          | nil => exact ⟨vals ++ [node], [], rfl, by simp, by simp [WFs]⟩
          | cons t2 r3 =>
            simp only []
            by_cases hc : t2.token = .tok_comma
            · rw [if_pos hc]
              have hwf3 : WFs r3 = true := (WFs_cons hwf2).2
              have hb3 : 5 * r3.length + 4 < fuel := by
                simp only [List.length_cons] at hb hlen
                omega
              obtain ⟨vs, rr, hloop, hle, hwfr⟩ := ihLoop (vals ++ [node]) r3 hwf3 hb3
              refine ⟨vs, rr, hloop, ?_, hwfr⟩
              simp only [List.length_cons] at hlen ⊢
              omega
            · rw [if_neg hc]
              refine ⟨vals ++ [node], t2 :: r3, rfl, ?_, hwf2⟩
              simp only [List.length_cons] at hlen ⊢
              omega
    -- parse_fcall
    · intro s hwf hne hb
      rw [parse_fcall_succ]
      cases s with
      | nil => exact absurd rfl hne
      | cons t r =>
        simp only []
        obtain ⟨hwt, hwr⟩ := WFs_cons hwf
        by_cases hs : t.token = .tok_symbol
        · rw [if_pos hs]
          cases hv : t.value with
          | none => exact absurd hv (WFtok_value hwt (Or.inl hs))
          | some fname =>
            simp only [hv]
            cases r with
            | nil => exact Or.inl rfl
            | cons t2 r2 =>
              cases r2 with
              | nil => exact Or.inl rfl
              | cons t3 r3 =>
                simp only []
                by_cases hlp : t2.token = .tok_lparen
                · rw [if_pos hlp]
                  have hwfr2 : WFs (t3 :: r3) = true := (WFs_cons hwr).2
                  have hb2 : 5 * (t3 :: r3).length + 5 < fuel := by
                    simp only [List.length_cons] at hb ⊢
                    omega
                  rcases ihCsv (t3 :: r3) hwfr2 hb2 with hfail | ⟨vs, rr, hok, hle, hwfrr⟩
                  · simp only [hfail]
                    by_cases hrp : t3.token = .tok_rparen
                    · rw [if_pos hrp]
                      refine Or.inr ⟨_, r3, rfl, ?_, (WFs_cons hwfr2).2⟩
                      simp only [List.length_cons]
                      omega
                    · rw [if_neg hrp]
                      exact Or.inl rfl
                  · simp only [hok]
                    cases rr with
                    | nil => exact Or.inl rfl
                    | cons t4 r4 =>
                      simp only []
                      by_cases hrp : t4.token = .tok_rparen
                      · rw [if_pos hrp]
                        refine Or.inr ⟨_, r4, rfl, ?_, (WFs_cons hwfrr).2⟩
                        simp only [List.length_cons] at hle ⊢
                        omega
                      · rw [if_neg hrp]
                        exact Or.inl rfl
                · rw [if_neg hlp]
                  exact Or.inl rfl
        · rw [if_neg hs]
          exact Or.inl rfl

/-- C6 amended: for every *nonempty* token sequence whose symbol, number
and string tokens carry text (`WFs`, the lexer's own invariant, see
`C9_nonconsumable_text`), `treeify` either returns an AST having
consumed the entire sequence, or fails with a syntax error identifying
the first remaining token; no crash and no partial AST.  On the empty
sequence it dereferences a null token pointer instead
(`C6_empty_sequence_crash`).  The two concrete conjuncts are the
unbalanced-parenthesis and trailing-token examples. -/
theorem C6_treeify_total :
    (∀ toks : List token_t, toks ≠ [] → WFs toks = true →
      (∃ t, treeify toks = .astR (some t)) ∨ (∃ tk, treeify toks = .synErr tk)) ∧
    treeify [⟨.tok_lparen, some "("⟩, ⟨.tok_symbol, some "a"⟩, ⟨.tok_plus, some "+"⟩,
      ⟨.tok_symbol, some "b"⟩] = .synErr ⟨.tok_lparen, some "("⟩ ∧
    treeify [⟨.tok_symbol, some "a"⟩, ⟨.tok_plus, some "+"⟩, ⟨.tok_symbol, some "b"⟩,
      ⟨.tok_rparen, some ")"⟩] = .synErr ⟨.tok_rparen, some ")"⟩ := by
  refine ⟨?_, rfl, rfl⟩
  intro toks hne hwf
  have h := (parser_total (parser_fuel toks)).1 toks true true hwf hne
    (show 5 * toks.length + 3 < parser_fuel toks from by unfold parser_fuel; omega)
  unfold treeify
  rcases h with hfail | ⟨t, r, hok, hlen, hwfr⟩
  · rw [hfail]
    cases toks with
    | nil => exact absurd rfl hne
    | cons t0 ts => exact Or.inr ⟨t0, rfl⟩
  · rw [hok]
    cases r with
    | nil => exact Or.inl ⟨t, rfl⟩
    | cons tk rr => exact Or.inr ⟨tk, rfl⟩

/-- Witness for `C6_treeify_total` on the one-token sequence `[symbol a]`. -/
theorem C6_treeify_total_witness :
    (∃ t, treeify [⟨.tok_symbol, some "a"⟩] = .astR (some t)) ∨
    (∃ tk, treeify [⟨.tok_symbol, some "a"⟩] = .synErr tk) :=
  C6_treeify_total.1 [⟨.tok_symbol, some "a"⟩] (by simp) (by decide)

end tiny

namespace see

/-! ### C10: the optimized `ConditionStack` against the naive stack. -/

theorem U32_eq : U32 = 4294967296 := by norm_num [U32]

theorem NO_FALSE_eq : NO_FALSE = 4294967295 := by norm_num [NO_FALSE]

theorem getD_append_lt (l l2 : List Bool) (j : Nat) (h : j < l.length) :
    (l ++ l2).getD j false = l.getD j false := by
  induction l generalizing j with
  | nil => simp at h
  | cons x rest ih =>
    cases j with
    | zero => simp
    | succ j =>
      simp only [List.cons_append, List.getD_cons_succ]
      exact ih j (by simpa using h)

theorem getD_append_self (l : List Bool) (b : Bool) :
    (l ++ [b]).getD l.length false = b := by
  induction l with
  | nil => simp
  | cons x rest ih => simpa using ih

theorem getD_dropLast (l : List Bool) (j : Nat) (h : j + 1 < l.length) :
    l.dropLast.getD j false = l.getD j false := by
  induction l generalizing j with
  | nil => simp at h
  | cons x rest ih =>
    cases rest with
    | nil => simp at h
    | cons y rest2 =>
      cases j with
      | zero => simp
      | succ j =>
        simp only [List.dropLast_cons_of_ne_nil (by simp : (y :: rest2) ≠ []),
          List.getD_cons_succ]
        exact ih j (by simpa using h)

theorem getLast?_getD (l : List Bool) (h : l ≠ []) :
    l.getLast? = some (l.getD (l.length - 1) false) := by
  induction l with
  | nil => exact absurd rfl h
  | cons x rest ih =>
    cases rest with
    | nil => simp
    | cons y rest2 =>
      rw [List.getLast?_cons_cons, ih (by simp)]
      simp

/-- The coupling invariant between the optimized stack and the naive
vector of booleans. -/
def CSInv (cs : ConditionStack) (l : List Bool) : Prop :=
  cs.m_stack_size = l.length ∧ l.length < NO_FALSE ∧
  ((cs.m_first_false_pos = NO_FALSE ∧ ∀ j, j < l.length → l.getD j false = true) ∨
   (cs.m_first_false_pos < l.length ∧ l.getD cs.m_first_false_pos false = false ∧
    ∀ j, j < cs.m_first_false_pos → l.getD j false = true))

theorem CSInv_push {cs : ConditionStack} {l : List Bool} (hinv : CSInv cs l)
    (b : Bool) (hlen : l.length + 1 < NO_FALSE) :
    CSInv (cs.push_back b) (l ++ [b]) := by
  obtain ⟨hsz, hlen0, hdich⟩ := hinv
  have hu : l.length + 1 < U32 := by
    rw [U32_eq]
    rw [NO_FALSE_eq] at hlen
    omega
  have hpb : cs.push_back b =
      ⟨(cs.m_stack_size + 1) % U32,
       if cs.m_first_false_pos = NO_FALSE ∧ b = false then cs.m_stack_size
       else cs.m_first_false_pos⟩ := rfl
  rw [hsz, Nat.mod_eq_of_lt hu] at hpb
  have hlen' : (l ++ [b]).length = l.length + 1 := by simp
  refine ⟨by rw [hpb, hlen'], by rw [hlen']; exact hlen, ?_⟩
  rcases hdich with ⟨hnf, hall⟩ | ⟨hlt, hfalse, hpre⟩
  · cases b with
    | false =>
      rw [if_pos (And.intro hnf rfl)] at hpb
      have hf1 : (cs.push_back false).m_first_false_pos = l.length := by rw [hpb]
      refine Or.inr ?_
      rw [hf1, hlen']
      refine ⟨by omega, ?_, ?_⟩
      · rw [getD_append_self]
      · intro j hj
        rw [getD_append_lt _ _ _ hj]
        exact hall j hj
    | true =>
      rw [if_neg (by simp)] at hpb
      have hf1 : (cs.push_back true).m_first_false_pos = NO_FALSE := by
        rw [hpb, hnf]
      refine Or.inl ?_
      rw [hf1, hlen']
      refine ⟨rfl, ?_⟩
      intro j hj
      rcases Nat.lt_or_ge j l.length with hj2 | hj2
      · rw [getD_append_lt _ _ _ hj2]
        exact hall j hj2
      · have hje : j = l.length := by omega
        subst hje
        rw [getD_append_self]
  · have hne2 : ¬(cs.m_first_false_pos = NO_FALSE ∧ b = false) := by
      intro hc
      rw [hc.1] at hlt
      rw [NO_FALSE_eq] at hlt hlen0
      omega
    rw [if_neg hne2] at hpb
    have hf1 : (cs.push_back b).m_first_false_pos = cs.m_first_false_pos := by
      rw [hpb]
    refine Or.inr ?_
    rw [hf1, hlen']
    refine ⟨by omega, ?_, ?_⟩
    · rw [getD_append_lt _ _ _ hlt]
      exact hfalse
    · intro j hj
      rw [getD_append_lt _ _ _ (by omega : j < l.length)]
      exact hpre j hj

theorem CSInv_pop {cs : ConditionStack} {l : List Bool} (hinv : CSInv cs l)
    (hne : l ≠ []) : CSInv cs.pop_back l.dropLast := by
  obtain ⟨hsz, hlen0, hdich⟩ := hinv
  have hpos : 0 < l.length := List.length_pos.2 hne
  have hudec : (cs.m_stack_size + U32 - 1) % U32 = l.length - 1 := by
    rw [hsz, U32_eq]
    rw [NO_FALSE_eq] at hlen0
    omega
  have hpb : cs.pop_back =
      ⟨(cs.m_stack_size + U32 - 1) % U32,
       if cs.m_first_false_pos = (cs.m_stack_size + U32 - 1) % U32 then NO_FALSE
       else cs.m_first_false_pos⟩ := rfl
  rw [hudec] at hpb
  have hdrop : l.dropLast.length = l.length - 1 := by simp
  refine ⟨by rw [hpb, hdrop], by rw [hdrop]; omega, ?_⟩
  rcases hdich with ⟨hnf, hall⟩ | ⟨hlt, hfalse, hpre⟩
  · have hneq : ¬(cs.m_first_false_pos = l.length - 1) := by
      rw [hnf, NO_FALSE_eq]
      rw [NO_FALSE_eq] at hlen0
      omega
    rw [if_neg hneq] at hpb
    have hf1 : cs.pop_back.m_first_false_pos = NO_FALSE := by rw [hpb, hnf]
    refine Or.inl ?_
    rw [hf1]
    refine ⟨rfl, ?_⟩
    intro j hj
    rw [hdrop] at hj
    rw [getD_dropLast _ _ (by omega)]
    exact hall j (by omega)
  · by_cases htop : cs.m_first_false_pos = l.length - 1
    · rw [if_pos htop] at hpb
      have hf1 : cs.pop_back.m_first_false_pos = NO_FALSE := by rw [hpb]
      refine Or.inl ?_
      rw [hf1]
      refine ⟨rfl, ?_⟩
      intro j hj
      rw [hdrop] at hj
      rw [getD_dropLast _ _ (by omega)]
      exact hpre j (by omega)
    · rw [if_neg htop] at hpb
      have hf1 : cs.pop_back.m_first_false_pos = cs.m_first_false_pos := by
        rw [hpb]
      have hlt2 : cs.m_first_false_pos < l.length - 1 := by omega
      refine Or.inr ?_
      rw [hf1, hdrop]
      refine ⟨by omega, ?_, ?_⟩
      · rw [getD_dropLast _ _ (by omega)]
        exact hfalse
      · intro j hj
        rw [getD_dropLast _ _ (by omega)]
        exact hpre j hj

theorem CSInv_toggle {cs : ConditionStack} {l : List Bool} (hinv : CSInv cs l)
    (hne : l ≠ []) : CSInv cs.toggle_top (naiveStep l .toggle) := by
  obtain ⟨hsz, hlen0, hdich⟩ := hinv
  have hpos : 0 < l.length := List.length_pos.2 hne
  have hlast : l.getLast? = some (l.getD (l.length - 1) false) := getLast?_getD l hne
  have hnv : naiveStep l .toggle =
      l.dropLast ++ [!(l.getD (l.length - 1) false)] := by
    simp only [naiveStep, hlast]
  have hudec : (cs.m_stack_size + U32 - 1) % U32 = l.length - 1 := by
    rw [hsz, U32_eq]
    rw [NO_FALSE_eq] at hlen0
    omega
  have htg : cs.toggle_top =
      if cs.m_first_false_pos = NO_FALSE then
        ⟨cs.m_stack_size, (cs.m_stack_size + U32 - 1) % U32⟩
      else if cs.m_first_false_pos = (cs.m_stack_size + U32 - 1) % U32 then
        ⟨cs.m_stack_size, NO_FALSE⟩
      else cs := rfl
  rw [hudec, hsz] at htg
  have hdrop : l.dropLast.length = l.length - 1 := by simp
  have hlennv : (naiveStep l CSOp.toggle).length = l.length := by
    rw [hnv]
    simp only [List.length_append, List.length_dropLast, List.length_singleton]
    omega
  refine ⟨?_, by rw [hlennv]; omega, ?_⟩
  · rcases hdich with ⟨hnf, _⟩ | ⟨hlt, _, _⟩
    · rw [if_pos hnf] at htg
      rw [htg, hlennv]
    · have hneqnf : ¬(cs.m_first_false_pos = NO_FALSE) := by
        rw [NO_FALSE_eq]
        rw [NO_FALSE_eq] at hlen0
        omega
      rw [if_neg hneqnf] at htg
      by_cases htop : cs.m_first_false_pos = l.length - 1
      · rw [if_pos htop] at htg
        rw [htg, hlennv]
      · rw [if_neg htop] at htg
        rw [htg, hlennv, hsz]
  · rcases hdich with ⟨hnf, hall⟩ | ⟨hlt, hfalse, hpre⟩
    · -- all true: the toggled top becomes the first false
      rw [if_pos hnf] at htg
      have htv : l.getD (l.length - 1) false = true := hall _ (by omega)
      have hnv2 : naiveStep l CSOp.toggle = l.dropLast ++ [false] := by
        rw [hnv, htv]
        rfl
      have hffp : cs.toggle_top.m_first_false_pos = l.length - 1 := by rw [htg]
      refine Or.inr ?_
      rw [hffp, hlennv]
      refine ⟨by omega, ?_, ?_⟩
      · rw [hnv2, ← hdrop, getD_append_self]
      · intro j hj
        rw [hnv2, getD_append_lt _ _ _ (by rw [hdrop]; omega),
          getD_dropLast _ _ (by omega)]
        exact hall j (by omega)
    · have hneqnf : ¬(cs.m_first_false_pos = NO_FALSE) := by
        rw [NO_FALSE_eq]
        rw [NO_FALSE_eq] at hlen0
        omega
      rw [if_neg hneqnf] at htg
      by_cases htop : cs.m_first_false_pos = l.length - 1
      · -- the top is the first false: toggling makes everything true
        rw [if_pos htop] at htg
        have htv : l.getD (l.length - 1) false = false := htop ▸ hfalse
        have hnv2 : naiveStep l CSOp.toggle = l.dropLast ++ [true] := by
          rw [hnv, htv]
          rfl
        have hffp : cs.toggle_top.m_first_false_pos = NO_FALSE := by rw [htg]
        refine Or.inl ?_
        rw [hffp]
        refine ⟨rfl, ?_⟩
        intro j hj
        rw [hlennv] at hj
        rw [hnv2]
        rcases Nat.lt_or_ge j (l.length - 1) with hj2 | hj2
        · rw [getD_append_lt _ _ _ (by rw [hdrop]; omega),
            getD_dropLast _ _ (by omega)]
          exact hpre j (by omega)
        · have hje : j = l.length - 1 := by omega
          subst hje
          rw [← hdrop, getD_append_self]
      · -- a false below the top: the toggle is unobservable
        rw [if_neg htop] at htg
        have hffp : cs.toggle_top.m_first_false_pos = cs.m_first_false_pos := by
          rw [htg]
        have hlt2 : cs.m_first_false_pos < l.length - 1 := by omega
        refine Or.inr ?_
        rw [hffp, hlennv]
        refine ⟨by omega, ?_, ?_⟩
        · rw [hnv, getD_append_lt _ _ _ (by rw [hdrop]; omega),
            getD_dropLast _ _ (by omega)]
          exact hfalse
        · intro j hj
          rw [hnv, getD_append_lt _ _ _ (by rw [hdrop]; omega),
            getD_dropLast _ _ (by omega)]
          exact hpre j hj

theorem CSInv_init : CSInv ConditionStack.init [] :=
  ⟨rfl, by decide, Or.inl ⟨rfl, fun j hj => absurd hj (Nat.not_lt_zero j)⟩⟩

theorem CSInv_run : ∀ (ops : List CSOp) (cs : ConditionStack) (l : List Bool),
    CSInv cs l → LegalOps l ops = true →
    CSInv (runOpt ops cs) (runNaive ops l) := by
  intro ops
  induction ops with
  | nil =>
    intro cs l hinv _
    exact hinv
  | cons op ops ih =>
    intro cs l hinv hleg
    have hrun1 : runOpt (op :: ops) cs = runOpt ops (optStep cs op) := rfl
    have hrun2 : runNaive (op :: ops) l = runNaive ops (naiveStep l op) := rfl
    rw [hrun1, hrun2]
    cases op with
    | push b =>
      have hleg2 : (decide (l.length + 1 < NO_FALSE)
          && LegalOps (naiveStep l (CSOp.push b)) ops) = true := hleg
      rw [Bool.and_eq_true] at hleg2
      exact ih _ _ (CSInv_push hinv b (of_decide_eq_true hleg2.1)) hleg2.2
    | pop =>
      have hleg2 : ((!l.isEmpty) && LegalOps (naiveStep l CSOp.pop) ops) = true := hleg
      rw [Bool.and_eq_true] at hleg2
      refine ih _ _ (CSInv_pop hinv ?_) hleg2.2
      intro h
      have h2 := hleg2.1
      rw [h] at h2
      simp at h2
    | toggle =>
      have hleg2 : ((!l.isEmpty) && LegalOps (naiveStep l CSOp.toggle) ops) = true := hleg
      rw [Bool.and_eq_true] at hleg2
      refine ih _ _ (CSInv_toggle hinv ?_) hleg2.2
      intro h
      have h2 := hleg2.1
      rw [h] at h2
      simp at h2

theorem CSInv_observations {cs : ConditionStack} {l : List Bool} (hinv : CSInv cs l) :
    cs.size = l.length ∧
    (cs.empty = true ↔ l = []) ∧
    (cs.all_true = true ↔ ∀ j, j < l.length → l.getD j false = true) ∧
    (∀ idx, idx < l.length →
      (cs.at_ idx = true ↔ ∀ j, j ≤ idx → l.getD j false = true)) := by
  obtain ⟨hsz, hlen0, hdich⟩ := hinv
  refine ⟨hsz, ?_, ?_, ?_⟩
  · have hempty : cs.empty = true ↔ cs.m_stack_size = 0 := by
      simp [ConditionStack.empty]
    rw [hempty, hsz]
    exact ⟨fun h => List.eq_nil_of_length_eq_zero h, fun h => by rw [h]; rfl⟩
  · have hat : cs.all_true = true ↔ cs.m_first_false_pos = NO_FALSE := by
      simp [ConditionStack.all_true]
    rw [hat]
    rcases hdich with ⟨hnf, hall⟩ | ⟨hlt, hfalse, hpre⟩
    · exact ⟨fun _ => hall, fun _ => hnf⟩
    · constructor
      · intro h
        rw [h] at hlt
        omega
      · intro h
        have h2 := h cs.m_first_false_pos hlt
        rw [hfalse] at h2
        exact Bool.noConfusion h2
  · intro idx hidx
    have h1 : cs.at_ idx = true ↔ idx < cs.m_first_false_pos := by
      simp [ConditionStack.at_]
    rw [h1]
    rcases hdich with ⟨hnf, hall⟩ | ⟨hlt, hfalse, hpre⟩
    · constructor
      · intro _ j hj
        exact hall j (by omega)
      · intro _
        rw [hnf, NO_FALSE_eq]
        rw [NO_FALSE_eq] at hlen0
        omega
    · constructor
      · intro h j hj
        exact hpre j (by omega)
      · intro h
        rcases Nat.lt_or_ge idx cs.m_first_false_pos with h2 | h2
        · exact h2
        · have h3 := h cs.m_first_false_pos h2
          rw [hfalse] at h3
          exact Bool.noConfusion h3

theorem runOpt_replicate_push_true : ∀ (k n : Nat), n < U32 →
    runOpt (List.replicate k (CSOp.push true)) ⟨n, NO_FALSE⟩ =
      ⟨(n + k) % U32, NO_FALSE⟩ := by
  intro k
  induction k with
  | zero =>
    intro n h
    show (⟨n, NO_FALSE⟩ : ConditionStack) = _
    rw [Nat.add_zero, Nat.mod_eq_of_lt h]
  | succ k ih =>
    intro n h
    rw [List.replicate_succ]
    have h1 : runOpt (CSOp.push true :: List.replicate k (CSOp.push true)) ⟨n, NO_FALSE⟩
        = runOpt (List.replicate k (CSOp.push true))
            (optStep ⟨n, NO_FALSE⟩ (CSOp.push true)) := rfl
    have hstep : optStep ⟨n, NO_FALSE⟩ (CSOp.push true) = ⟨(n + 1) % U32, NO_FALSE⟩ := by
      simp [optStep, ConditionStack.push_back]
    have hmod : (n + 1) % U32 < U32 := Nat.mod_lt _ (by rw [U32_eq]; omega)
    rw [h1, hstep, ih ((n + 1) % U32) hmod]
    have harith : ((n + 1) % U32 + k) % U32 = (n + (k + 1)) % U32 := by
      rw [Nat.mod_add_mod]
      congr 1
      omega
    rw [harith]

theorem runNaive_replicate_push : ∀ (k : Nat) (b : Bool) (l : List Bool),
    runNaive (List.replicate k (CSOp.push b)) l = l ++ List.replicate k b := by
  intro k
  induction k with
  | zero =>
    intro b l
    show l = l ++ []
    rw [List.append_nil]
  | succ k ih =>
    intro b l
    rw [List.replicate_succ, List.replicate_succ]
    have h1 : runNaive (CSOp.push b :: List.replicate k (CSOp.push b)) l
        = runNaive (List.replicate k (CSOp.push b)) (l ++ [b]) := rfl
    rw [h1, ih b (l ++ [b]), List.append_assoc]
    rfl

theorem LegalOps0_pushes : ∀ (ops : List CSOp),
    (∀ op ∈ ops, ∃ b, op = CSOp.push b) → ∀ l, LegalOps0 l ops = true := by
  intro ops
  induction ops with
  | nil =>
    intro _ l
    rfl
  | cons op rest ih =>
    intro hall l
    obtain ⟨b, hb⟩ := hall op (List.mem_cons_self op rest)
    subst hb
    have h1 : LegalOps0 l (CSOp.push b :: rest)
        = (true && LegalOps0 (naiveStep l (CSOp.push b)) rest) := rfl
    rw [h1, Bool.true_and]
    exact ih (fun o ho => hall o (List.mem_cons_of_mem _ ho)) _

/-- C10 (counterexample): the optimized `ConditionStack` is not
observationally equivalent to the naive stack of booleans under the
claim's legality condition (`pop_back`/`toggle_top` only on a non-empty
stack).  First, `at(idx)` returns `m_first_false_pos > idx`, i.e. whether
every element at position `≤ idx` is true — not the `idx`-th element:
after `push_back(false); push_back(true)` the naive element at index 1 is
`true` but `at(1)` is `false`.  Second, the `uint32_t` size counter wraps:
after `2^32` pushes (all legal per the claim) the optimized stack reports
`empty()` and `all_true()` although the naive stack holds `2^32` elements
one of which is `false`. -/
theorem C10_not_equivalent :
    (LegalOps0 [] [CSOp.push false, CSOp.push true] = true ∧
      (runOpt [CSOp.push false, CSOp.push true] ConditionStack.init).at_ 1 = false ∧
      (runNaive [CSOp.push false, CSOp.push true] []).getD 1 false = true) ∧
    (LegalOps0 []
        (List.replicate (2 ^ 32 - 1) (CSOp.push true) ++ [CSOp.push false]) = true ∧
      (runOpt (List.replicate (2 ^ 32 - 1) (CSOp.push true) ++ [CSOp.push false])
        ConditionStack.init).empty = true ∧
      (runOpt (List.replicate (2 ^ 32 - 1) (CSOp.push true) ++ [CSOp.push false])
        ConditionStack.init).all_true = true ∧
      (runNaive (List.replicate (2 ^ 32 - 1) (CSOp.push true) ++ [CSOp.push false])
        []).length = 2 ^ 32 ∧
      (runNaive (List.replicate (2 ^ 32 - 1) (CSOp.push true) ++ [CSOp.push false])
        []).getD (2 ^ 32 - 1) false = false) := by
  have hpow : (2 : Nat) ^ 32 = 4294967296 := by norm_num
  refine ⟨⟨rfl, rfl, rfl⟩, ?_, ?_, ?_, ?_, ?_⟩
  · refine LegalOps0_pushes _ ?_ []
    intro op hop
    rcases List.mem_append.1 hop with h | h
    · exact ⟨true, List.eq_of_mem_replicate h⟩
    · rw [List.mem_singleton] at h
      exact ⟨false, h⟩
  all_goals {
    have hsplit : runOpt
        (List.replicate (2 ^ 32 - 1) (CSOp.push true) ++ [CSOp.push false])
        ConditionStack.init
        = runOpt [CSOp.push false]
            (runOpt (List.replicate (2 ^ 32 - 1) (CSOp.push true))
              ConditionStack.init) := by
      show List.foldl optStep _ _ = _
      rw [List.foldl_append]
      rfl
    have hrep : runOpt (List.replicate (2 ^ 32 - 1) (CSOp.push true))
        ConditionStack.init = ⟨NO_FALSE, NO_FALSE⟩ := by
      have h1 := runOpt_replicate_push_true (2 ^ 32 - 1) 0 (by rw [U32_eq]; omega)
      have h2 : (0 + (2 ^ 32 - 1)) % U32 = NO_FALSE := by
        rw [U32_eq, NO_FALSE_eq, hpow]
      rw [show ConditionStack.init = (⟨0, NO_FALSE⟩ : ConditionStack) from rfl, h1, h2]
    have hfinal : runOpt [CSOp.push false] (⟨NO_FALSE, NO_FALSE⟩ : ConditionStack)
        = ⟨0, NO_FALSE⟩ := by
      show ConditionStack.push_back ⟨NO_FALSE, NO_FALSE⟩ false = _
      have h3 : ConditionStack.push_back ⟨NO_FALSE, NO_FALSE⟩ false =
          ⟨(NO_FALSE + 1) % U32, NO_FALSE⟩ := by
        simp [ConditionStack.push_back]
      have h4 : (NO_FALSE + 1) % U32 = 0 := by
        rw [U32_eq, NO_FALSE_eq]
      rw [h3, h4]
    have hopt : runOpt
        (List.replicate (2 ^ 32 - 1) (CSOp.push true) ++ [CSOp.push false])
        ConditionStack.init = ⟨0, NO_FALSE⟩ := by
      rw [hsplit, hrep, hfinal]
    have hnsplit : runNaive
        (List.replicate (2 ^ 32 - 1) (CSOp.push true) ++ [CSOp.push false]) []
        = runNaive [CSOp.push false]
            (runNaive (List.replicate (2 ^ 32 - 1) (CSOp.push true)) []) := by
      show List.foldl naiveStep _ _ = _
      rw [List.foldl_append]
      rfl
    have hnaive : runNaive
        (List.replicate (2 ^ 32 - 1) (CSOp.push true) ++ [CSOp.push false]) []
        = List.replicate (2 ^ 32 - 1) true ++ [false] := by
      rw [hnsplit, runNaive_replicate_push]
      show (([] ++ List.replicate (2 ^ 32 - 1) true) ++ [false] : List Bool) = _
      rw [List.nil_append]
    first
    | (rw [hopt]; rfl)
    | (rw [hnaive, List.length_append, List.length_replicate, List.length_singleton,
        hpow])
    | (rw [hnaive]
       have h5 := getD_append_self (List.replicate (2 ^ 32 - 1) true) false
       rw [List.length_replicate] at h5
       exact h5)
  }

/-- C10: under the claim's legality condition strengthened by the bound
that the stack never reaches `2^32 - 1` elements (so that the `uint32_t`
fields are faithful), the optimized `ConditionStack` agrees with the naive
stack of booleans on `size()`, `empty()` and `all_true()`, and `at(idx)`
(for `idx < size`) returns whether every naive element at position `≤ idx`
is true (which is what the debugger uses it for: whether execution is
active at nesting depth `idx`). -/
theorem C10_condition_stack_equiv (ops : List CSOp)
    (hleg : LegalOps [] ops = true) :
    (runOpt ops ConditionStack.init).size = (runNaive ops []).length ∧
    ((runOpt ops ConditionStack.init).empty = true ↔ runNaive ops [] = []) ∧
    ((runOpt ops ConditionStack.init).all_true = true ↔
      ∀ j, j < (runNaive ops []).length → (runNaive ops []).getD j false = true) ∧
    (∀ idx, idx < (runNaive ops []).length →
      ((runOpt ops ConditionStack.init).at_ idx = true ↔
        ∀ j, j ≤ idx → (runNaive ops []).getD j false = true)) :=
  CSInv_observations (CSInv_run ops ConditionStack.init [] CSInv_init hleg)

theorem C10_condition_stack_equiv_witness :
    LegalOps []
      [CSOp.push true, CSOp.push false, CSOp.toggle, CSOp.pop, CSOp.push true]
      = true ∧
    (runOpt [CSOp.push true, CSOp.push false, CSOp.toggle, CSOp.pop, CSOp.push true]
        ConditionStack.init).size
      = (runNaive
          [CSOp.push true, CSOp.push false, CSOp.toggle, CSOp.pop, CSOp.push true]
          []).length :=
  ⟨by decide,
    (C10_condition_stack_equiv
      [CSOp.push true, CSOp.push false, CSOp.toggle, CSOp.pop, CSOp.push true]
      (by decide)).1⟩

end see
